import Mathlib

/-!
Verification of the text-corpus / search / replace / EPUB-package core of the
Epub-Tools repository, as a shallow embedding in Lean.

Conventions of the embedding:
* Python strings are `List Char` (indices are code points, as in Python).
* Python dicts that are only ever accessed by key are functions `κ → Option v`
  (an absent key and a key deleted with `del` are both `none` / the default);
  dicts that are iterated over (`content_map`) are association lists kept in
  insertion order, mirroring Python's ordered dicts.
* Fallible operations return `Bool × State` mirroring the `(bool, mutated self)`
  effect of the Python methods; an uncaught Python exception is an `Except.error`.
* Recursions that Python performs with `while`/`for` loops over indices are
  written with an explicit fuel argument equal to the scanned length, so that
  every definition is a computable structural recursion; lemmas `..._cons` below
  recover the loop-step equations.
* Python's `\w` (letters/digits/underscore) is modelled on the ASCII fragment:
  `Char.isAlphanum || c == '_'`; `str.lower()` is `Char.toLower` per character.
-/

namespace EpubTools

/-! ## Word tokenisation (`re.findall(r'\w+', s)` / `re.finditer(r'\w+', s)`)

`tokens s` is the list of maximal runs of word characters of `s`, in order —
the model of Python's `re.findall(r'\w+', s)`.  `posTokensFrom s i` also
records the start index of each run (`match.start()`), modelling
`re.finditer(r'\w+', s)`. -/

def isWordChar (c : Char) : Bool := c.isAlphanum || c == '_'

def tokensF : Nat → List Char → List (List Char)
  | 0, _ => []
  | _ + 1, [] => []
  | fuel + 1, c :: cs =>
    if isWordChar c then
      (c :: cs.takeWhile isWordChar) :: tokensF fuel (cs.dropWhile isWordChar)
    else
      tokensF fuel cs

def tokens (l : List Char) : List (List Char) := tokensF l.length l

def posTokensFromF : Nat → List Char → Nat → List (Nat × List Char)
  | 0, _, _ => []
  | _ + 1, [], _ => []
  | fuel + 1, c :: cs, i =>
    if isWordChar c then
      (i, c :: cs.takeWhile isWordChar) ::
        posTokensFromF fuel (cs.dropWhile isWordChar) (i + 1 + (cs.takeWhile isWordChar).length)
    else
      posTokensFromF fuel cs (i + 1)

def posTokensFrom (l : List Char) (i : Nat) : List (Nat × List Char) :=
  posTokensFromF l.length l i

theorem tokensF_fuel_irrel : ∀ (f₁ f₂ : Nat) (l : List Char),
    l.length ≤ f₁ → l.length ≤ f₂ → tokensF f₁ l = tokensF f₂ l := by
  intro f₁
  induction f₁ with
  | zero =>
    intro f₂ l h₁ _
    have : l = [] := List.length_eq_zero.mp (Nat.le_zero.mp h₁)
    subst this
    cases f₂ <;> rfl
  | succ g₁ ih =>
    intro f₂ l h₁ h₂
    cases l with
    | nil => cases f₂ <;> rfl
    | cons c cs =>
      cases f₂ with
      | zero => exact absurd h₂ (by simp)
      | succ g₂ =>
        simp only [tokensF]
        have hcs₁ : cs.length ≤ g₁ := Nat.lt_succ_iff.mp h₁
        have hcs₂ : cs.length ≤ g₂ := Nat.lt_succ_iff.mp h₂
        have hd₁ : (cs.dropWhile isWordChar).length ≤ g₁ :=
          le_trans (List.dropWhile_sublist isWordChar).length_le hcs₁
        have hd₂ : (cs.dropWhile isWordChar).length ≤ g₂ :=
          le_trans (List.dropWhile_sublist isWordChar).length_le hcs₂
        by_cases h : isWordChar c
        · simp [h, ih g₂ _ hd₁ hd₂]
        · simp [h, ih g₂ _ hcs₁ hcs₂]

theorem tokens_nil : tokens [] = [] := rfl

theorem tokens_cons (c : Char) (cs : List Char) :
    tokens (c :: cs) =
      if isWordChar c then
        (c :: cs.takeWhile isWordChar) :: tokens (cs.dropWhile isWordChar)
      else
        tokens cs := by
  show tokensF (cs.length + 1) (c :: cs) = _
  simp only [tokensF]
  by_cases h : isWordChar c
  · simp [h, tokens,
      tokensF_fuel_irrel cs.length (cs.dropWhile isWordChar).length (cs.dropWhile isWordChar)
        (List.dropWhile_sublist isWordChar).length_le (Nat.le_refl _)]
  · simp [h, tokens, tokensF_fuel_irrel cs.length cs.length cs (Nat.le_refl _) (Nat.le_refl _)]

theorem posTokensFromF_fuel_irrel : ∀ (f₁ f₂ : Nat) (l : List Char) (i : Nat),
    l.length ≤ f₁ → l.length ≤ f₂ → posTokensFromF f₁ l i = posTokensFromF f₂ l i := by
  intro f₁
  induction f₁ with
  | zero =>
    intro f₂ l i h₁ _
    have : l = [] := List.length_eq_zero.mp (Nat.le_zero.mp h₁)
    subst this
    cases f₂ <;> rfl
  | succ g₁ ih =>
    intro f₂ l i h₁ h₂
    cases l with
    | nil => cases f₂ <;> rfl
    | cons c cs =>
      cases f₂ with
      | zero => exact absurd h₂ (by simp)
      | succ g₂ =>
        simp only [posTokensFromF]
        have hcs₁ : cs.length ≤ g₁ := Nat.lt_succ_iff.mp h₁
        have hcs₂ : cs.length ≤ g₂ := Nat.lt_succ_iff.mp h₂
        have hd₁ : (cs.dropWhile isWordChar).length ≤ g₁ :=
          le_trans (List.dropWhile_sublist isWordChar).length_le hcs₁
        have hd₂ : (cs.dropWhile isWordChar).length ≤ g₂ :=
          le_trans (List.dropWhile_sublist isWordChar).length_le hcs₂
        by_cases h : isWordChar c
        · simp [h, ih g₂ _ _ hd₁ hd₂]
        · simp [h, ih g₂ _ _ hcs₁ hcs₂]

theorem posTokensFrom_nil (i : Nat) : posTokensFrom [] i = [] := rfl

theorem posTokensFrom_cons (c : Char) (cs : List Char) (i : Nat) :
    posTokensFrom (c :: cs) i =
      if isWordChar c then
        (i, c :: cs.takeWhile isWordChar) ::
          posTokensFrom (cs.dropWhile isWordChar) (i + 1 + (cs.takeWhile isWordChar).length)
      else
        posTokensFrom cs (i + 1) := by
  show posTokensFromF (cs.length + 1) (c :: cs) i = _
  simp only [posTokensFromF]
  by_cases h : isWordChar c
  · simp [h, posTokensFrom,
      posTokensFromF_fuel_irrel cs.length (cs.dropWhile isWordChar).length
        (cs.dropWhile isWordChar) _
        (List.dropWhile_sublist isWordChar).length_le (Nat.le_refl _)]
  · simp [h, posTokensFrom,
      posTokensFromF_fuel_irrel cs.length cs.length cs _ (Nat.le_refl _) (Nat.le_refl _)]

/-- Custom induction principle following the recursion shape of `tokens`. -/
theorem tokens_rec {motive : List Char → Prop} (h0 : motive [])
    (h1 : ∀ c cs, isWordChar c = true → motive (cs.dropWhile isWordChar) → motive (c :: cs))
    (h2 : ∀ c cs, isWordChar c = false → motive cs → motive (c :: cs)) :
    ∀ l, motive l := by
  have key : ∀ (n : Nat) (l : List Char), l.length = n → motive l := by
    intro n
    induction n using Nat.strong_induction_on with
    | _ n ih =>
      intro l hn
      cases l with
      | nil => exact h0
      | cons c cs =>
        subst hn
        by_cases h : isWordChar c
        · exact h1 c cs h (ih (cs.dropWhile isWordChar).length
            (Nat.lt_succ_of_le (List.dropWhile_sublist isWordChar).length_le) _ rfl)
        · exact h2 c cs (Bool.not_eq_true _ ▸ h)
            (ih cs.length (Nat.lt_succ_self _) _ rfl)
  exact fun l => key l.length l rfl

theorem posTokensFrom_map_snd (l : List Char) :
    ∀ i, (posTokensFrom l i).map Prod.snd = tokens l := by
  induction l using tokens_rec with
  | h0 => intro i; rfl
  | h1 c cs h ih =>
    intro i
    rw [posTokensFrom_cons, tokens_cons]
    simp [h, ih]
  | h2 c cs h ih =>
    intro i
    rw [posTokensFrom_cons, tokens_cons]
    simp [h, ih]

/-! ## Line splitting (`content.split('\n')`) -/

/-- Model of Python's `s.split('\n')`: `splitLines [] = [[]]` just as
`"".split('\n') == ['']`. -/
def splitLines : List Char → List (List Char)
  | [] => [[]]
  | c :: cs =>
    match splitLines cs with
    | [] => [[c]]  -- unreachable: `splitLines` never returns `[]`
    | l :: ls => if c = '\n' then [] :: l :: ls else (c :: l) :: ls

/-- Inverse of `splitLines`: `'\n'.join(...)` restricted to the shapes we use. -/
def joinLines : List (List Char) → List Char
  | [] => []
  | [l] => l
  | l :: ls => l ++ '\n' :: joinLines ls

theorem splitLines_ne_nil (l : List Char) : splitLines l ≠ [] := by
  cases l with
  | nil => simp [splitLines]
  | cons c cs =>
    simp only [splitLines]
    cases splitLines cs with
    | nil => simp
    | cons m ms => by_cases h : c = '\n' <;> simp [h]

theorem joinLines_splitLines (l : List Char) : joinLines (splitLines l) = l := by
  induction l with
  | nil => rfl
  | cons c cs ih =>
    simp only [splitLines]
    cases hs : splitLines cs with
    | nil => exact absurd hs (splitLines_ne_nil cs)
    | cons m ms =>
      rw [hs] at ih
      by_cases h : c = '\n'
      · subst h
        cases ms with
        | nil => simpa [joinLines] using ih
        | cons m' ms' => simpa [joinLines] using ih
      · simp only [h, if_false]
        cases ms with
        | nil => simpa [joinLines] using ih
        | cons m' ms' => simpa [joinLines] using ih

theorem takeWhile_append_stop {p : Char → Bool} {sep : Char} (hsep : p sep = false)
    (x y : List Char) : (x ++ sep :: y).takeWhile p = x.takeWhile p := by
  induction x with
  | nil => simp [List.takeWhile, hsep]
  | cons a as ih =>
    simp only [List.cons_append, List.takeWhile]
    cases p a <;> simp [ih]

theorem dropWhile_append_stop {p : Char → Bool} {sep : Char} (hsep : p sep = false)
    (x y : List Char) : (x ++ sep :: y).dropWhile p = x.dropWhile p ++ sep :: y := by
  induction x with
  | nil => simp [List.dropWhile, hsep]
  | cons a as ih =>
    simp only [List.cons_append, List.dropWhile]
    cases p a <;> simp [ih]

/-- Maximal word runs never cross a non-word separator: `tokens` distributes
over a separator character. -/
theorem tokens_append_sep {sep : Char} (hsep : isWordChar sep = false) :
    ∀ x y : List Char, tokens (x ++ sep :: y) = tokens x ++ tokens y := by
  intro x
  induction x using tokens_rec with
  | h0 =>
    intro y
    simp only [List.nil_append, tokens_cons, hsep, tokens_nil]
    simp
  | h1 c cs h ih =>
    intro y
    rw [List.cons_append, tokens_cons, tokens_cons]
    simp only [h, if_true, takeWhile_append_stop hsep, dropWhile_append_stop hsep]
    rw [ih y]
    simp
  | h2 c cs h ih =>
    intro y
    rw [List.cons_append, tokens_cons, tokens_cons]
    simp [h, ih y]

theorem tokens_joinLines (parts : List (List Char)) :
    tokens (joinLines parts) = (parts.map tokens).flatten := by
  induction parts with
  | nil => rfl
  | cons l ls ih =>
    cases ls with
    | nil => simp [joinLines]
    | cons m ms =>
      have : joinLines (l :: m :: ms) = l ++ '\n' :: joinLines (m :: ms) := rfl
      rw [this, tokens_append_sep (by decide), ih]
      simp

/-- The word tokens of a whole text are the concatenation of the word tokens of
its lines: relates `re.findall(r'\w+', content)` (used by `_reindex_file` for
the old/new word sets) to the per-line scan of `_index_content`. -/
theorem tokens_eq_flatten_splitLines (l : List Char) :
    tokens l = ((splitLines l).map tokens).flatten := by
  conv_lhs => rw [← joinLines_splitLines l]
  exact tokens_joinLines _

theorem toLower_eq_newline_iff (c : Char) : Char.toLower c = '\n' ↔ c = '\n' := by
  constructor
  · intro h
    by_contra hne
    unfold Char.toLower at h
    by_cases hr : c.toNat ≥ 65 ∧ c.toNat ≤ 90
    · rw [if_pos hr] at h
      have : (Char.ofNat (c.toNat + 32)).toNat = c.toNat + 32 := by
        unfold Char.ofNat
        rw [dif_pos]
        · rfl
        · left; omega
      have h10 : (Char.ofNat (c.toNat + 32)).toNat = ('\n' : Char).toNat := by rw [h]
      rw [this] at h10
      simp only [show ('\n' : Char).toNat = 10 from rfl] at h10
      omega
    · rw [if_neg hr] at h
      exact hne h
  · intro h
    subst h
    rfl

theorem splitLines_map_toLower (l : List Char) :
    splitLines (l.map Char.toLower) = (splitLines l).map (List.map Char.toLower) := by
  induction l with
  | nil => rfl
  | cons c cs ih =>
    simp only [List.map_cons, splitLines, ih]
    cases hs : splitLines cs with
    | nil => exact absurd hs (splitLines_ne_nil cs)
    | cons m ms =>
      by_cases h : c = '\n'
      · simp [h, toLower_eq_newline_iff]
      · simp [h, (toLower_eq_newline_iff c).not.mpr h]

/-! ## Content Store (`src/core/content_manager.py`, class `ContentManager`)

`content_map` is an insertion-ordered association list (Python dict);
`original_content`, `change_history`, `file_index` and `modified_files` are
only ever accessed by key, so they are modelled as functions.  The `stats`
counters are diagnostics no claim mentions and are omitted.  For `file_index`,
a key deleted with `del` and a key holding `[]` are observationally identical
through `search_index`, so both are the function value `[]`. -/

/-- A posting of the word index: `(file_path, line_num, position)`. -/
abbrev Posting := String × Nat × Nat

structure CMState where
  content_map : List (String × List Char)
  original_content : String → Option (List Char)
  modified_files : String → Bool
  change_history : String → List (List Char × List Char)
  file_index : List Char → List Posting

def initCM : CMState :=
  { content_map := []
    original_content := fun _ => none
    modified_files := fun _ => false
    change_history := fun _ => []
    file_index := fun _ => [] }

/-- `ContentManager._validate_content`: reject content containing `'\x00'`. -/
def validateContent (c : List Char) : Bool := !(c.contains '\x00')

/-- `self.content_map.get(file_path)` / `ContentManager.get_content`. -/
def lookupCM (s : CMState) (p : String) : Option (List Char) :=
  (s.content_map.find? (fun e => e.1 == p)).map Prod.snd

/-- One `(token, line_num, position)` triple per word occurrence, scanning
lines in order with 1-based line numbers, each line lowercased before the
`\w+` scan — the traversal shared by `_index_content` and step 4 of
`_reindex_file` (`for line_num, line in enumerate(lines, 1): for match in
re.finditer(r'\w+', line.lower())`). -/
def lineTokens : List (List Char) → Nat → List (List Char × Nat × Nat)
  | [], _ => []
  | l :: ls, n =>
    ((posTokensFrom (l.map Char.toLower) 0).map (fun pt => (pt.2, n, pt.1)))
      ++ lineTokens ls (n + 1)

def tokenOccs (c : List Char) : List (List Char × Nat × Nat) :=
  lineTokens (splitLines c) 1

/-- The postings appended to `file_index[w]` when content `c` of file `p` is
scanned: the `(p, line, pos)` triples of the occurrences of token `w`, in scan
order.  (`_index_content` appends each occurrence to its own word's list, so
per word `w` the appended sublist is exactly this.) -/
def occList (p : String) (c : List Char) (w : List Char) : List Posting :=
  (tokenOccs c).filterMap (fun e => if e.1 == w then some (p, e.2.1, e.2.2) else none)

def occListOpt (p : String) (c? : Option (List Char)) (w : List Char) : List Posting :=
  match c? with
  | none => []
  | some c => occList p c w

/-- Effect of `_index_content(file_path, content)` on the index, per word. -/
def indexAdd (f : List Char → List Posting) (p : String) (c : List Char) :
    List Char → List Posting :=
  fun w => f w ++ occList p c w

/-- Effect of `_reindex_file(file_path, old_content, new_content)` on the
index, per word `w`:
step 2 purges this file's postings for words of the old content absent from
the new (`old_words - new_words`; the `del` of an emptied key is the value
`[]`); step 3 first clears this file's postings for words present in both
(`words_to_update.intersection(old_words)`), then re-scans the new content,
appending every occurrence (a word without occurrences in the new content
appends nothing: its `occList` is `[]`). -/
def reindexIndex (p : String) (old new : List Char) (f : List Char → List Posting) :
    List Char → List Posting :=
  let oldW := tokens (old.map Char.toLower)
  let newW := tokens (new.map Char.toLower)
  fun w =>
    let f₂ := if w ∈ oldW ∧ w ∉ newW then (f w).filter (fun e => e.1 != p) else f w
    let f₃ := if w ∈ newW ∧ w ∈ oldW then f₂.filter (fun e => e.1 != p) else f₂
    f₃ ++ occList p new w

/-- `ContentManager.add_file`. -/
def addFile (s : CMState) (p : String) (c : List Char) : Bool × CMState :=
  if !(validateContent c) then (false, s)
  else
    (true,
      { s with
        content_map :=
          if (s.content_map.find? (fun e => e.1 == p)).isSome then
            s.content_map.map (fun e => if e.1 == p then (p, c) else e)
          else
            s.content_map ++ [(p, c)]
        original_content := fun q => if q == p then some c else s.original_content q
        file_index := indexAdd s.file_index p c })

/-- `ContentManager.update_content`. -/
def updateContent (s : CMState) (p : String) (newC : List Char) : Bool × CMState :=
  match lookupCM s p with
  | none => (false, s)
  | some old =>
    if !(validateContent newC) then (false, s)
    else if old = newC then (false, s)
    else
      (true,
        { s with
          content_map := s.content_map.map (fun e => if e.1 == p then (p, newC) else e)
          modified_files := fun q => if q == p then true else s.modified_files q
          change_history := fun q =>
            if q == p then s.change_history q ++ [(old, newC)] else s.change_history q
          file_index := reindexIndex p old newC s.file_index })

/-- `ContentManager.rollback_file`.  The loop pops `min(steps, len(history))`
records from the end of the history; the restored content is the code's
`history[-1][0]` of the *remaining* history (not the popped record), or the
original snapshot when the history is exhausted.  The two `none` branches are
unreachable in states built through the API (Python would raise there). -/
def rollbackFile (s : CMState) (p : String) (steps : Nat) : Bool × CMState :=
  if (s.change_history p).isEmpty || steps < 1 then (false, s)
  else
    match lookupCM s p with
    | none => (false, s)
    | some current =>
      match ((s.change_history p).take
          ((s.change_history p).length - min steps (s.change_history p).length)).getLast? with
      | none =>
        match s.original_content p with
        | none => (false, s)
        | some orig =>
          (true,
            { s with
              content_map := s.content_map.map (fun e => if e.1 == p then (p, orig) else e)
              modified_files := fun q => if q == p then false else s.modified_files q
              change_history := fun q =>
                if q == p then
                  (s.change_history p).take
                    ((s.change_history p).length - min steps (s.change_history p).length)
                else s.change_history q
              file_index := reindexIndex p current orig s.file_index })
      | some last =>
        (true,
          { s with
            content_map := s.content_map.map (fun e => if e.1 == p then (p, last.1) else e)
            change_history := fun q =>
              if q == p then
                (s.change_history p).take
                  ((s.change_history p).length - min steps (s.change_history p).length)
              else s.change_history q
            file_index := reindexIndex p current last.1 s.file_index })

/-- `ContentManager.search_index`: `self.file_index.get(word.lower(), [])`. -/
def searchIndex (s : CMState) (w : List Char) : List Posting :=
  s.file_index (w.map Char.toLower)

/-- The mutation alphabet of claim C1: `update`/`rollback` calls after the
initial `add`s. -/
inductive EOp
  | update (p : String) (c : List Char)
  | rollback (p : String) (steps : Nat)

def applyEOp (s : CMState) : EOp → CMState
  | .update p c => (updateContent s p c).2
  | .rollback p k => (rollbackFile s p k).2

def runEOps (s : CMState) (ops : List EOp) : CMState := ops.foldl applyEOp s

def addAll (s : CMState) (adds : List (String × List Char)) : CMState :=
  adds.foldl (fun t pc => (addFile t pc.1 pc.2).2) s

/-! ## C1 machinery: the word-index invariant -/

theorem occList_fst {p : String} {c w : List Char} :
    ∀ e ∈ occList p c w, e.1 = p := by
  intro e he
  rcases List.mem_filterMap.mp he with ⟨a, _, ha⟩
  by_cases h : a.1 == w
  · simp only [occList, h, if_true, Option.some.injEq] at ha
    exact (congrArg Prod.fst ha).symm ▸ rfl
  · simp [h] at ha

theorem filter_occList_self {p : String} {c w : List Char} :
    (occList p c w).filter (fun e => e.1 == p) = occList p c w := by
  apply List.filter_eq_self.mpr
  intro e he
  exact beq_iff_eq.mpr (occList_fst e he)

theorem filter_occList_other {p q : String} {c w : List Char} (h : q ≠ p) :
    (occList p c w).filter (fun e => e.1 == q) = [] := by
  apply List.filter_eq_nil_iff.mpr
  intro e he
  simp [occList_fst e he, h.symm]

theorem mem_lineTokens {e : List Char × Nat × Nat} :
    ∀ {ls : List (List Char)} {n : Nat}, e ∈ lineTokens ls n →
      ∃ l ∈ ls, e.1 ∈ tokens (l.map Char.toLower) := by
  intro ls
  induction ls with
  | nil => intro n h; simp [lineTokens] at h
  | cons l ls ih =>
    intro n h
    rcases List.mem_append.mp h with h1 | h2
    · rcases List.mem_map.mp h1 with ⟨pt, hpt, hpe⟩
      refine ⟨l, List.mem_cons_self l ls, ?_⟩
      have : e.1 = pt.2 := by rw [← hpe]
      rw [this, ← posTokensFrom_map_snd (l.map Char.toLower) 0]
      exact List.mem_map_of_mem Prod.snd hpt
    · rcases ih h2 with ⟨m, hm, he⟩
      exact ⟨m, List.mem_cons_of_mem l hm, he⟩

theorem tokens_subset_of_mem_splitLines {l c : List Char} (hl : l ∈ splitLines c) :
    ∀ x ∈ tokens (l.map Char.toLower), x ∈ tokens (c.map Char.toLower) := by
  intro x hx
  have hmem : l.map Char.toLower ∈ splitLines (c.map Char.toLower) := by
    rw [splitLines_map_toLower]
    exact List.mem_map_of_mem _ hl
  rw [tokens_eq_flatten_splitLines (c.map Char.toLower)]
  exact List.mem_flatten.mpr
    ⟨tokens (l.map Char.toLower), List.mem_map_of_mem tokens hmem, hx⟩

/-- If a word does not occur among the (case-folded) tokens of a content, the
scan of that content yields no postings for it. -/
theorem occList_eq_nil_of_not_mem {p : String} {c w : List Char}
    (hw : w ∉ tokens (c.map Char.toLower)) : occList p c w = [] := by
  apply List.filterMap_eq_nil_iff.mpr
  intro e he
  have hne : ¬(e.1 == w) = true := by
    intro hew
    rcases @mem_lineTokens e (splitLines c) 1 he with ⟨l, hl, hel⟩
    exact hw (beq_iff_eq.mp hew ▸ tokens_subset_of_mem_splitLines hl e.1 hel)
  simp [hne]

theorem filter_filter_ne_self {p : String} (l : List Posting) :
    (l.filter (fun e => e.1 != p)).filter (fun e => e.1 == p) = [] := by
  rw [List.filter_filter]
  apply List.filter_eq_nil_iff.mpr
  intro e _
  by_cases h : e.1 = p <;> simp [h]

theorem filter_filter_ne_other {p q : String} (hq : q ≠ p) (l : List Posting) :
    (l.filter (fun e => e.1 != p)).filter (fun e => e.1 == q) =
      l.filter (fun e => e.1 == q) := by
  rw [List.filter_filter]
  apply List.filter_congr
  intro e _
  by_cases h : e.1 = q
  · simp [h, hq]
  · simp [h]

/-- Core correctness of `_reindex_file`, per word, for the mutated path: if
the index held exactly the old content's postings for `p`, afterwards it holds
exactly the new content's postings for `p`. -/
theorem reindex_filter_self {p : String} {old new : List Char}
    {f : List Char → List Posting} {w : List Char}
    (h : (f w).filter (fun e => e.1 == p) = occList p old w) :
    ((reindexIndex p old new f) w).filter (fun e => e.1 == p) = occList p new w := by
  unfold reindexIndex
  simp only [List.filter_append, filter_occList_self]
  by_cases h1 : w ∈ tokens (old.map Char.toLower)
  · by_cases h2 : w ∈ tokens (new.map Char.toLower)
    · simp [h1, h2, filter_filter_ne_self]
    · simp [h1, h2, filter_filter_ne_self]
  · have : occList p old w = [] := occList_eq_nil_of_not_mem h1
    simp [h1, h, this]

/-- Frame property of `_reindex_file`, per word: postings of other paths are
untouched. -/
theorem reindex_filter_other {p q : String} {old new : List Char}
    {f : List Char → List Posting} {w : List Char} (hq : q ≠ p) :
    ((reindexIndex p old new f) w).filter (fun e => e.1 == q) =
      (f w).filter (fun e => e.1 == q) := by
  unfold reindexIndex
  simp only [List.filter_append, filter_occList_other hq]
  by_cases h1 : w ∈ tokens (old.map Char.toLower) <;>
    by_cases h2 : w ∈ tokens (new.map Char.toLower) <;>
      simp [h1, h2, filter_filter_ne_other hq]

/-! Association-list lemmas for `content_map` (`self.content_map[path] = v`). -/

theorem find_map_replace_self (cm : List (String × List Char)) (p : String) (c : List Char) :
    (cm.map (fun e => if e.1 == p then (p, c) else e)).find? (fun e => e.1 == p) =
      if (cm.find? (fun e => e.1 == p)).isSome then some (p, c) else none := by
  induction cm with
  | nil => rfl
  | cons e cm ih =>
    by_cases h : (e.1 == p) = true
    · simp only [List.map_cons, h, if_true]
      rw [@List.find?_cons_of_pos _ (fun e => e.1 == p) (p, c) _ (by simp),
        @List.find?_cons_of_pos _ (fun e => e.1 == p) e cm h]
      simp
    · simp only [List.map_cons]
      rw [if_neg h,
        @List.find?_cons_of_neg _ (fun e => e.1 == p) e _ h,
        @List.find?_cons_of_neg _ (fun e => e.1 == p) e cm h]
      exact ih

theorem find_map_replace_other (cm : List (String × List Char)) (p q : String)
    (c : List Char) (hq : q ≠ p) :
    (cm.map (fun e => if e.1 == p then (p, c) else e)).find? (fun e => e.1 == q) =
      cm.find? (fun e => e.1 == q) := by
  induction cm with
  | nil => rfl
  | cons e cm ih =>
    by_cases h : (e.1 == p) = true
    · have hne : ¬(e.1 == q) = true := by
        intro hc
        exact hq ((beq_iff_eq.mp hc).symm.trans (beq_iff_eq.mp h))
      simp only [List.map_cons, h, if_true]
      rw [@List.find?_cons_of_neg _ (fun e => e.1 == q) (p, c) _
          (by simpa using fun hc => hq (beq_iff_eq.mp hc).symm),
        @List.find?_cons_of_neg _ (fun e => e.1 == q) e cm hne]
      exact ih
    · simp only [List.map_cons]
      rw [if_neg h]
      by_cases h2 : (e.1 == q) = true
      · rw [@List.find?_cons_of_pos _ (fun e => e.1 == q) e _ h2,
          @List.find?_cons_of_pos _ (fun e => e.1 == q) e cm h2]
      · rw [@List.find?_cons_of_neg _ (fun e => e.1 == q) e _ h2,
          @List.find?_cons_of_neg _ (fun e => e.1 == q) e cm h2]
        exact ih

theorem find_append_single (cm : List (String × List Char)) (p q : String) (c : List Char) :
    (cm ++ [(p, c)]).find? (fun e => e.1 == q) =
      ((cm.find? (fun e => e.1 == q)).or (if p == q then some (p, c) else none)) := by
  rw [List.find?_append]
  congr 1
  by_cases h : (p == q) = true
  · simp only [h, if_true]
    exact @List.find?_cons_of_pos _ (fun e => e.1 == q) (p, c) [] h
  · simp only [h, if_false]
    rw [@List.find?_cons_of_neg _ (fun e => e.1 == q) (p, c) [] h]
    rfl

theorem lookupCM_updateContent_other {s : CMState} {p q : String} {c : List Char}
    (hq : q ≠ p) : lookupCM (updateContent s p c).2 q = lookupCM s q := by
  unfold updateContent
  cases lookupCM s p with
  | none => rfl
  | some old =>
    by_cases hv : validateContent c
    · by_cases he : old = c
      · simp [hv, he]
      · simp only [hv, Bool.not_true, Bool.false_eq_true, if_false, if_neg he]
        show Option.map Prod.snd
            ((s.content_map.map (fun e => if e.1 == p then (p, c) else e)).find?
              (fun e => e.1 == q)) = _
        rw [find_map_replace_other s.content_map p q c hq]
        rfl
    · simp [hv]

/-! The index invariant: for every word and path, the postings held by
`file_index` for that path are exactly the occurrences of that word in the
path's current content. -/

def IndexInv (s : CMState) : Prop :=
  ∀ (w : List Char) (p : String),
    (s.file_index w).filter (fun e => e.1 == p) = occListOpt p (lookupCM s p) w

theorem indexInv_initCM : IndexInv initCM := by
  intro w p
  simp [initCM, lookupCM, occListOpt, List.find?]

theorem lookupCM_addFile_isSome {s : CMState} {p : String} {c : List Char} (q : String) :
    (lookupCM (addFile s p c).2 q).isSome → q = p ∨ (lookupCM s q).isSome := by
  unfold addFile
  by_cases hv : validateContent c
  · simp only [hv, Bool.not_true, Bool.false_eq_true, if_false]
    by_cases hq : q = p
    · exact fun _ => Or.inl hq
    · intro h
      right
      by_cases hs : (s.content_map.find? (fun e => e.1 == p)).isSome
      · rw [if_pos hs] at h
        unfold lookupCM at h
        rw [show ({ s with
            content_map := s.content_map.map (fun e => if e.1 == p then (p, c) else e),
            original_content := fun r => if r == p then some c else s.original_content r,
            file_index := indexAdd s.file_index p c } : CMState).content_map =
              s.content_map.map (fun e => if e.1 == p then (p, c) else e) from rfl,
          find_map_replace_other s.content_map p q c hq] at h
        exact h
      · rw [if_neg hs] at h
        unfold lookupCM at h
        rw [show ({ s with
            content_map := s.content_map ++ [(p, c)],
            original_content := fun r => if r == p then some c else s.original_content r,
            file_index := indexAdd s.file_index p c } : CMState).content_map =
              s.content_map ++ [(p, c)] from rfl,
          find_append_single s.content_map p q c,
          if_neg (show ¬(p == q) = true by
            simpa using fun hc => hq (beq_iff_eq.mp hc).symm)] at h
        unfold lookupCM
        cases hfq : s.content_map.find? (fun e => e.1 == q) with
        | none => rw [hfq] at h; simp at h
        | some v => simp
  · simp only [hv, Bool.not_false, if_true]
    exact fun h => Or.inr h

theorem indexInv_addFile {s : CMState} {p : String} {c : List Char}
    (hInv : IndexInv s) (hfresh : lookupCM s p = none) :
    IndexInv (addFile s p c).2 := by
  unfold addFile
  by_cases hv : validateContent c
  · simp only [hv, Bool.not_true, Bool.false_eq_true, if_false]
    have hnone : (s.content_map.find? (fun e => e.1 == p)).isSome = false := by
      unfold lookupCM at hfresh
      cases hs : s.content_map.find? (fun e => e.1 == p) with
      | none => rfl
      | some v => rw [hs] at hfresh; simp at hfresh
    intro w q
    simp only [hnone, Bool.false_eq_true, if_false, indexAdd, List.filter_append]
    by_cases hq : q = p
    · subst hq
      rw [filter_occList_self, hInv w q, hfresh]
      have : lookupCM { s with
          content_map := s.content_map ++ [(q, c)],
          original_content := fun r => if r == q then some c else s.original_content r,
          file_index := indexAdd s.file_index q c } q = some c := by
        unfold lookupCM at hfresh ⊢
        simp only [find_append_single s.content_map q q c]
        cases hs : s.content_map.find? (fun e => e.1 == q) with
        | none => simp
        | some v => rw [hs] at hfresh; simp at hfresh
      rw [this]
      simp [occListOpt]
    · rw [filter_occList_other hq, hInv w q]
      have : lookupCM { s with
          content_map := s.content_map ++ [(p, c)],
          original_content := fun r => if r == p then some c else s.original_content r,
          file_index := indexAdd s.file_index p c } q = lookupCM s q := by
        unfold lookupCM
        simp only [find_append_single s.content_map p q c,
          if_neg (by simpa using fun hc => hq (beq_iff_eq.mp hc).symm : ¬(p == q) = true)]
        cases s.content_map.find? (fun e => e.1 == q) <;> simp
      rw [this]
      simp
  · simpa [hv] using hInv

/-- The invariant statement for any committed mutation: content replaced in
`content_map`, index repaired by `_reindex_file`. -/
theorem indexInv_commit {s : CMState} {p : String} {old newC : List Char}
    (hInv : IndexInv s) (hl : lookupCM s p = some old) :
    ∀ (w : List Char) (q : String),
      ((reindexIndex p old newC s.file_index) w).filter (fun e => e.1 == q) =
        occListOpt q (Option.map Prod.snd
          ((s.content_map.map (fun e => if e.1 == p then (p, newC) else e)).find?
            (fun e => e.1 == q))) w := by
  intro w q
  by_cases hq : q = p
  · subst hq
    have hfind : (s.content_map.find? (fun e => e.1 == q)).isSome := by
      unfold lookupCM at hl
      cases hf : s.content_map.find? (fun e => e.1 == q) with
      | none => rw [hf] at hl; simp at hl
      | some v => simp
    rw [find_map_replace_self, if_pos hfind]
    have hold : (s.file_index w).filter (fun e => e.1 == q) = occList q old w := by
      rw [hInv w q, hl]
      rfl
    rw [reindex_filter_self hold]
    rfl
  · rw [find_map_replace_other _ _ _ _ hq, reindex_filter_other hq, hInv w q]
    rfl

theorem indexInv_updateContent {s : CMState} {p : String} {c : List Char}
    (hInv : IndexInv s) : IndexInv (updateContent s p c).2 := by
  unfold updateContent
  cases hl : lookupCM s p with
  | none => exact hInv
  | some old =>
    by_cases hv : validateContent c
    · by_cases he : old = c
      · simpa [hv, he] using hInv
      · simp only [hv, Bool.not_true, Bool.false_eq_true, if_false, if_neg he]
        exact fun w q => indexInv_commit hInv hl w q
    · simpa [hv] using hInv

theorem indexInv_rollbackFile {s : CMState} {p : String} {k : Nat}
    (hInv : IndexInv s) : IndexInv (rollbackFile s p k).2 := by
  unfold rollbackFile
  by_cases hg : ((s.change_history p).isEmpty || decide (k < 1)) = true
  · rw [if_pos hg]
    exact hInv
  · rw [if_neg hg]
    cases hl : lookupCM s p with
    | none => exact hInv
    | some current =>
      cases hlast : ((s.change_history p).take
          ((s.change_history p).length - min k (s.change_history p).length)).getLast? with
      | none =>
        cases ho : s.original_content p with
        | none => exact hInv
        | some orig => exact fun w q => indexInv_commit hInv hl w q
      | some last => exact fun w q => indexInv_commit hInv hl w q

theorem indexInv_runEOps {s : CMState} (ops : List EOp) (hInv : IndexInv s) :
    IndexInv (runEOps s ops) := by
  induction ops generalizing s with
  | nil => exact hInv
  | cons op ops ih =>
    cases op with
    | update p c => exact ih (indexInv_updateContent hInv)
    | rollback p k => exact ih (indexInv_rollbackFile hInv)

theorem indexInv_addAll (adds : List (String × List Char)) :
    ∀ (s : CMState) (done : List String), IndexInv s →
      (∀ q, (lookupCM s q).isSome → q ∈ done) →
      (∀ pr ∈ adds, pr.1 ∉ done) →
      (adds.map Prod.fst).Nodup →
      IndexInv (addAll s adds) := by
  induction adds with
  | nil => intro s done hInv _ _ _; exact hInv
  | cons pc rest ih =>
    intro s done hInv hdom hnotin hnd
    have hp : pc.1 ∉ done := hnotin pc (List.mem_cons_self pc rest)
    have hfresh : lookupCM s pc.1 = none := by
      cases hl : lookupCM s pc.1 with
      | none => rfl
      | some v => exact absurd (hdom pc.1 (by simp [hl])) hp
    have hnd' : (rest.map Prod.fst).Nodup := (List.nodup_cons.mp hnd).2
    have hhead : pc.1 ∉ rest.map Prod.fst := (List.nodup_cons.mp hnd).1
    refine ih (addFile s pc.1 pc.2).2 (pc.1 :: done)
      (indexInv_addFile hInv hfresh) ?_ ?_ hnd'
    · intro q hq
      rcases lookupCM_addFile_isSome q hq with h | h
      · exact h ▸ List.mem_cons_self _ _
      · exact List.mem_cons_of_mem _ (hdom q h)
    · intro pr hpr
      intro hmem
      rcases List.mem_cons.mp hmem with h | h
      · exact hhead (h ▸ List.mem_map_of_mem Prod.fst hpr)
      · exact hnotin pr (List.mem_cons_of_mem pc hpr) h

/-- C1 (word-index consistency): for every path `p` added exactly once and any
finite sequence of `update_content`/`rollback_file` calls on any paths,
`search_index(w)` holds exactly the `(p, line, column)` postings — line
1-based, column 0-based — at which the case-folded token `w` occurs as a
maximal word run in the current content of `p` (no extras, no omissions, in
scan order); mutations to other paths leave `p`'s postings untouched. -/
theorem c1_word_index_consistency
    (adds : List (String × List Char)) (hnd : (adds.map Prod.fst).Nodup)
    (ops : List EOp) (w : List Char) (p : String) :
    (searchIndex (runEOps (addAll initCM adds) ops) w).filter (fun e => e.1 == p) =
      occListOpt p (lookupCM (runEOps (addAll initCM adds) ops) p) (w.map Char.toLower) := by
  have hInv : IndexInv (runEOps (addAll initCM adds) ops) :=
    indexInv_runEOps ops (indexInv_addAll adds initCM [] indexInv_initCM
      (fun q h => by simp [lookupCM, initCM, List.find?] at h)
      (fun pr _ h => by simp at h) hnd)
  exact hInv (w.map Char.toLower) p

/-- Witness for C1 at a concrete two-file corpus with an update and a rollback. -/
theorem c1_word_index_consistency_witness :
    ([("a", "Cat cat\ndog".toList), ("b", "cat".toList)].map
        (@Prod.fst String (List Char))).Nodup ∧
      (searchIndex (runEOps (addAll initCM [("a", "Cat cat\ndog".toList), ("b", "cat".toList)])
            [EOp.update "a" "bird cat".toList, EOp.update "b" "fish".toList,
              EOp.rollback "b" 1]) "CAT".toList).filter (fun e => e.1 == "a") =
        occListOpt "a"
          (lookupCM (runEOps (addAll initCM [("a", "Cat cat\ndog".toList), ("b", "cat".toList)])
            [EOp.update "a" "bird cat".toList, EOp.update "b" "fish".toList,
              EOp.rollback "b" 1]) "a") ("CAT".toList.map Char.toLower) :=
  ⟨by decide,
    c1_word_index_consistency [("a", "Cat cat\ndog".toList), ("b", "cat".toList)] (by decide)
      [EOp.update "a" "bird cat".toList, EOp.update "b" "fish".toList, EOp.rollback "b" 1]
      "CAT".toList "a"⟩

/-- C5 (code_bug evidence): after `add("a","A")`, `update("a","B")`,
`update("a","C")`, a one-step rollback pops the record `("B","C")` — whose
"previous" component is `"B"` — yet `rollback_file` restores
`history[-1][0]` of the *remaining* history and leaves the content at `"A"`,
contradicting both the claim and the function's own comment. -/
theorem c5_rollback_restores_wrong_record :
    (rollbackFile (updateContent (updateContent (addFile initCM "a" "A".toList).2
        "a" "B".toList).2 "a" "C".toList).2 "a" 1).1 = true ∧
    ((updateContent (updateContent (addFile initCM "a" "A".toList).2
        "a" "B".toList).2 "a" "C".toList).2.change_history "a").getLast? =
      some ("B".toList, "C".toList) ∧
    lookupCM (rollbackFile (updateContent (updateContent (addFile initCM "a" "A".toList).2
        "a" "B".toList).2 "a" "C".toList).2 "a" 1).2 "a" = some "A".toList ∧
    some "A".toList ≠ some "B".toList := by
  refine ⟨by decide, by decide, by decide, by decide⟩

/-! ## C8: the per-path change history is unbounded -/

/-- Contents of strictly growing length, all null-free. -/
def growContent (k : Nat) : List Char := List.replicate (k + 1) 'a'

/-- `k` successive content updates of path `"a"`. -/
def growOps : Nat → List EOp
  | 0 => []
  | k + 1 => growOps k ++ [EOp.update "a" (growContent (k + 1))]

theorem runEOps_append (s : CMState) (l₁ l₂ : List EOp) :
    runEOps s (l₁ ++ l₂) = runEOps (runEOps s l₁) l₂ :=
  List.foldl_append _ _ _ _

theorem growOps_state (k : Nat) :
    lookupCM (runEOps (addFile initCM "a" (growContent 0)).2 (growOps k)) "a" =
        some (growContent k) ∧
      ((runEOps (addFile initCM "a" (growContent 0)).2 (growOps k)).change_history "a").length
        = k := by
  induction k with
  | zero => exact ⟨by decide, by decide⟩
  | succ k ih =>
    rw [growOps, runEOps_append]
    rcases ih with ⟨ihl, ihh⟩
    set t := runEOps (addFile initCM "a" (growContent 0)).2 (growOps k) with ht
    have hv : validateContent (growContent (k + 1)) = true := by
      have h : ¬ ('\x00' ∈ List.replicate (k + 2) 'a') := by
        intro h
        exact absurd (List.eq_of_mem_replicate h) (by decide)
      simp [validateContent, growContent] at h ⊢
    have hne : growContent k ≠ growContent (k + 1) := by
      intro h
      have := congrArg List.length h
      simp [growContent] at this
    have hfind : (t.content_map.find? (fun e => e.1 == "a")).isSome := by
      unfold lookupCM at ihl
      cases hf : t.content_map.find? (fun e => e.1 == "a") with
      | none => rw [hf] at ihl; simp at ihl
      | some v => simp
    have hstep : runEOps t [EOp.update "a" (growContent (k + 1))] =
        (updateContent t "a" (growContent (k + 1))).2 := rfl
    rw [hstep]
    unfold updateContent
    rw [ihl]
    simp only [hv, Bool.not_true, Bool.false_eq_true, if_false, if_neg hne]
    constructor
    · unfold lookupCM
      show (Option.map Prod.snd
        ((t.content_map.map (fun e => if e.1 == "a" then ("a", growContent (k + 1)) else e)).find?
          (fun e => e.1 == "a"))) = _
      rw [find_map_replace_self, if_pos hfind]
      rfl
    · show (if ("a" : String) == "a" then
          t.change_history "a" ++ [(growContent k, growContent (k + 1))]
        else t.change_history "a").length = k + 1
      rw [if_pos (by decide)]
      simp [ihh]

/-- C8 counterexample: there is no fixed bound `N` on the length of a path's
change history — `k` successful updates leave `k` records, for every `k`.
The history cap the claim asserts does not exist in `update_content`. -/
theorem c8_no_history_bound :
    ¬ ∃ N : Nat, ∀ k : Nat,
      ((runEOps (addFile initCM "a" (growContent 0)).2 (growOps k)).change_history "a").length
        ≤ N := by
  rintro ⟨N, hN⟩
  have h := hN (N + 1)
  rw [(growOps_state (N + 1)).2] at h
  omega

/-- C8 (amended): `update_content` appends one `(previous, new)` record per
successful update and never drops the oldest — the history is unbounded
(records are removed only by `rollback_file`). -/
theorem c8_update_appends_history (s : CMState) (p : String) (c old : List Char)
    (hl : lookupCM s p = some old) (hv : validateContent c = true) (hne : old ≠ c) :
    (updateContent s p c).2.change_history p = s.change_history p ++ [(old, c)] ∧
      (updateContent s p c).1 = true := by
  unfold updateContent
  rw [hl]
  simp only [hv, Bool.not_true, Bool.false_eq_true, if_false, if_neg hne]
  constructor
  · show (if p == p then s.change_history p ++ [(old, c)] else s.change_history p) = _
    rw [if_pos (by simp)]
  · trivial

/-- Witness for the amended C8 at a concrete state. -/
theorem c8_update_appends_history_witness :
    lookupCM (addFile initCM "a" "x".toList).2 "a" = some "x".toList ∧
      validateContent "y".toList = true ∧ "x".toList ≠ "y".toList ∧
      ((updateContent (addFile initCM "a" "x".toList).2 "a" "y".toList).2.change_history "a" =
          (addFile initCM "a" "x".toList).2.change_history "a" ++ [("x".toList, "y".toList)] ∧
        (updateContent (addFile initCM "a" "x".toList).2 "a" "y".toList).1 = true) :=
  ⟨by decide, by decide, by decide,
    c8_update_appends_history (addFile initCM "a" "x".toList).2 "a" "y".toList "x".toList
      (by decide) (by decide) (by decide)⟩

/-! ## Search Engine (`src/core/search_engine.py`)

The regex engine itself is not embedded: a compiled pattern is abstracted as a
`Matcher` — the per-line `finditer` span list — and `_build_search_regex`'s
outcome (`None` on `re.error`) is a parameter `Option Matcher`.  Since the
Python compilation is a pure function of `(pattern, case_sensitive,
regex_mode, whole_word)`, every call with the same options receives the same
parameter value, and the caching claims are proved for *every* such value. -/

/-- Python slice `l[a:b]` for natural bounds (clamped, empty when `b ≤ a`). -/
def pySlice (l : List Char) (a b : Nat) : List Char := (l.drop a).take (b - a)

structure SearchResult where
  file_path : String
  line_number : Nat
  start_pos : Nat
  end_pos : Nat
  match_text : List Char
  context_before : List Char
  context_after : List Char
deriving DecidableEq

/-- Abstraction of a compiled pattern: the `(start, end)` spans `finditer`
yields on one line, in order. -/
abbrev Matcher := List Char → List (Nat × Nat)

/-- Per-line result construction of `_search_file`: spans become results with
`match.group()` (= the line slice) and fixed-size context clipped at line
boundaries. -/
def searchLines (m : Matcher) (ctx : Nat) (p : String) :
    List (List Char) → Nat → List SearchResult
  | [], _ => []
  | l :: ls, n =>
    ((m l).map (fun se =>
      { file_path := p
        line_number := n
        start_pos := se.1
        end_pos := se.2
        match_text := pySlice l se.1 se.2
        context_before := pySlice l (se.1 - ctx) se.1
        context_after := (l.drop se.2).take (min l.length (se.2 + ctx) - se.2) }))
      ++ searchLines m ctx p ls (n + 1)

/-- `SearchEngine._search_file` (the `if not content` guard also skips `""`). -/
def searchFile (m : Matcher) (ctx : Nat) (p : String) : Option (List Char) → List SearchResult
  | none => []
  | some c => if c = [] then [] else searchLines m ctx p (splitLines c) 1

/-- The parallel dispatch of `search`: one task per file in `content_map`
order, results concatenated in submission order (each task reads the store
via `get_content`). -/
def scanAll (m : Matcher) (ctx : Nat) (cm : CMState) : List SearchResult :=
  (cm.content_map.map (fun e => searchFile m ctx e.1 (lookupCM cm e.1))).flatten

structure SEState where
  search_cache : List Char → Option (List SearchResult)

def initSE : SEState := ⟨fun _ => none⟩

/-- `SearchEngine._generate_cache_key`: `f"{pattern}|{int(cs)}|{int(rm)}|{int(ww)}"`. -/
def cacheKey (pattern : List Char) (cs rm ww : Bool) : List Char :=
  pattern ++ '|' :: (if cs then ['1'] else ['0'])
    ++ '|' :: (if rm then ['1'] else ['0'])
    ++ '|' :: (if ww then ['1'] else ['0'])

/-- `SearchEngine.search`: cache lookup first; a failed pattern compilation
(`cmp = none`) returns `[]` without caching; otherwise scan all files and
store the result list under the key.  (`last_search_stats` is a diagnostic no
claim mentions and is omitted.) -/
def searchFn (cmp : Option Matcher) (pattern : List Char) (cs rm ww : Bool) (ctx : Nat)
    (cm : CMState) (se : SEState) : List SearchResult × SEState :=
  match se.search_cache (cacheKey pattern cs rm ww) with
  | some results => (results, se)
  | none =>
    match cmp with
    | none => ([], se)
    | some m =>
      let results := scanAll m ctx cm
      (results,
        ⟨fun k => if k = cacheKey pattern cs rm ww then some results else se.search_cache k⟩)

/-- `SearchEngine.clear_cache`. -/
def clearCache (_se : SEState) : SEState := ⟨fun _ => none⟩

/-- The Store mutation alphabet for C6: `add_file`/`update_content`/`rollback_file`. -/
inductive SOp
  | add (p : String) (c : List Char)
  | update (p : String) (c : List Char)
  | rollback (p : String) (steps : Nat)

def applySOp (s : CMState) : SOp → CMState
  | .add p c => (addFile s p c).2
  | .update p c => (updateContent s p c).2
  | .rollback p k => (rollbackFile s p k).2

def runSOps (s : CMState) (ops : List SOp) : CMState := ops.foldl applySOp s

/-- C6: once `search` has returned a list for an option key, any later call
with the same `(pattern, caseSensitive, regexMode, wholeWord)` key returns
that same list without rescanning — Store mutations in between (which act on
the `ContentManager` alone and never touch the engine's cache) do not
invalidate it — the later call leaves the engine state unchanged, and only an
explicit `clear_cache` empties the cache. -/
theorem c6_search_cache_stable (cmp : Option Matcher) (pattern : List Char)
    (cs rm ww : Bool) (ctx ctx₂ : Nat) (cm : CMState) (se : SEState) (ops : List SOp) :
    (searchFn cmp pattern cs rm ww ctx₂ (runSOps cm ops)
        (searchFn cmp pattern cs rm ww ctx cm se).2).1 =
      (searchFn cmp pattern cs rm ww ctx cm se).1 ∧
    (searchFn cmp pattern cs rm ww ctx₂ (runSOps cm ops)
        (searchFn cmp pattern cs rm ww ctx cm se).2).2 =
      (searchFn cmp pattern cs rm ww ctx cm se).2 ∧
    (∀ k, (clearCache (searchFn cmp pattern cs rm ww ctx cm se).2).search_cache k = none) := by
  unfold searchFn
  cases hc : se.search_cache (cacheKey pattern cs rm ww) with
  | some r => exact ⟨by rw [hc], by rw [hc], fun k => rfl⟩
  | none =>
    cases cmp with
    | none => exact ⟨by rw [hc], by rw [hc], fun k => rfl⟩
    | some m =>
      refine ⟨?_, ?_, fun k => rfl⟩ <;> simp

/-! ## Fuzzy search (`SearchEngine.fuzzy_search`, `_find_closest_match`,
`_levenshtein_distance`) -/

/-- Inner loop of `_levenshtein_distance`: builds the tail of `current_row`
from `previous_row`, tracking the last appended value (`current_row[j]`).
The final catch-all arm is unreachable: `previous_row` always has
`len(s2) + 1 ≥ 2` entries when scanning a nonempty `s2`. -/
def levRow (c1 : Char) : List Char → List Nat → Nat → List Nat
  | [], _, _ => []
  | c2 :: rest, p0 :: p1 :: ps, curLast =>
    let insertions := p1 + 1
    let deletions := curLast + 1
    let substitutions := p0 + (if c1 ≠ c2 then 1 else 0)
    let v := min insertions (min deletions substitutions)
    v :: levRow c1 rest (p1 :: ps) v
  | _ :: _, _, _ => []

/-- Outer loop of `_levenshtein_distance`: one row per character of `s1`,
`current_row = [i + 1] ++ ...`. -/
def levLoop (s2 : List Char) : List Char → List Nat → Nat → List Nat
  | [], prev, _ => prev
  | c1 :: rest, prev, i => levLoop s2 rest ((i + 1) :: levRow c1 s2 prev (i + 1)) (i + 1)

/-- `_levenshtein_distance` for `len(s1) ≥ len(s2)`: the `len(s2) == 0` short
cut, then the two-row DP starting from `previous_row = range(len(s2)+1)`,
returning `previous_row[-1]`. -/
def levCore (s1 s2 : List Char) : Nat :=
  if s2.length = 0 then s1.length
  else (levLoop s2 s1 (List.range (s2.length + 1)) 0).getLastD 0

/-- `SearchEngine._levenshtein_distance` (the initial swap recursion inlined:
it merely reorders the arguments once). -/
def levenshtein (s1 s2 : List Char) : Nat :=
  if s1.length < s2.length then levCore s2 s1 else levCore s1 s2

/-- `SearchEngine._find_closest_match`: first window position `i ∈
[start, len(text) - len(pattern)]` whose window is within `max_distance`;
`-1` is `none`. -/
def findClosestF : Nat → List Char → List Char → Nat → Nat → Option Nat
  | 0, _, _, _, _ => none
  | fuel + 1, text, pat, i, maxd =>
    if text.length < i + pat.length then none
    else if levenshtein ((text.drop i).take pat.length) pat ≤ maxd then some i
    else findClosestF fuel text pat (i + 1) maxd

def findClosest (text pat : List Char) (i maxd : Nat) : Option Nat :=
  findClosestF (text.length + 1 - i) text pat i maxd

/-- The `while pos_in_line < len(line_lower)` loop of `fuzzy_search` for one
line.  Fuel bounds the loop: each accepted match of a nonempty pattern
advances the position, so `len(line) + 1` steps always suffice; Python
diverges on an empty pattern, which exhausts the fuel instead. -/
def fuzzyLineF (p : String) (ln : Nat) (line lineLower pat : List Char) (maxd ctx : Nat) :
    Nat → Nat → List SearchResult
  | 0, _ => []
  | fuel + 1, pos =>
    if pos < lineLower.length then
      match findClosest lineLower pat pos maxd with
      | none => []
      | some mstart =>
        { file_path := p
          line_number := ln
          start_pos := mstart
          end_pos := mstart + pat.length
          match_text := pySlice line mstart (mstart + pat.length)
          context_before := pySlice line (mstart - ctx) mstart
          context_after := (line.drop (mstart + pat.length)).take
            (min line.length (mstart + pat.length + ctx) - (mstart + pat.length)) }
          :: fuzzyLineF p ln line lineLower pat maxd ctx fuel (mstart + pat.length)
    else []

def fuzzyLines (p : String) (pat : List Char) (maxd ctx : Nat) :
    List (List Char) → Nat → List SearchResult
  | [], _ => []
  | l :: ls, n =>
    fuzzyLineF p n l (l.map Char.toLower) pat maxd ctx (l.length + 1) 0
      ++ fuzzyLines p pat maxd ctx ls (n + 1)

/-- `SearchEngine.fuzzy_search`: always case-insensitive; iterates
`content_map.items()` in order, scanning each line with the sliding window. -/
def fuzzySearch (cm : CMState) (pattern : List Char) (maxd ctx : Nat) : List SearchResult :=
  (cm.content_map.map (fun e =>
    fuzzyLines e.1 (pattern.map Char.toLower) maxd ctx (splitLines e.2) 1)).flatten

/-- C7 counterexample: on the corpus `{"f": "the quick teh fox"}`,
`fuzzy_search("teh", max_distance=1)` returns a single result — no result
covers the substring `"the"` at column 0, contrary to the claim that both
`"the"` and `"teh"` are found. -/
theorem c7_fuzzy_counterexample :
    (fuzzySearch (addFile initCM "f" "the quick teh fox".toList).2 "teh".toList 1 30).length
        = 1 ∧
      ∀ r ∈ fuzzySearch (addFile initCM "f" "the quick teh fox".toList).2 "teh".toList 1 30,
        r.match_text ≠ "the".toList := by
  constructor
  · decide
  · decide

/-- C7 (amended): `fuzzy_search("teh", max_distance=1)` on
`"the quick teh fox"` returns exactly one result, the exact occurrence
`"teh"` at line 1, columns 10–13 (distance 0); `"the"` is at classic
insert/delete/substitute Levenshtein distance 2 from `"teh"` (a transposition
costs two unit edits), which exceeds `max_distance = 1`, so it is not
matched. -/
theorem c7_fuzzy_finds_only_exact :
    (fuzzySearch (addFile initCM "f" "the quick teh fox".toList).2 "teh".toList 1 30).map
        (fun r => (r.line_number, r.start_pos, r.end_pos, r.match_text))
        = [(1, 10, 13, "teh".toList)] ∧
      levenshtein "the".toList "teh".toList = 2 := by
  constructor
  · decide
  · decide

/-! ## Replace Engine (`src/core/replace_engine.py`)

`_compile_pattern` / `pattern.subn` are abstracted as in the Search Engine: a
compiled pattern's substitution behaviour is a function
`content ↦ (new_content, num_replacements)` and `_compile_pattern`'s outcome
is an `Option` of it, passed as a parameter (deterministic in the pattern
options, so identical calls receive identical values). -/

structure ReplacementStats where
  total_replacements : Nat
  files_modified : Nat
  failed_files : Nat
  characters_changed : Int
deriving DecidableEq

def initStats : ReplacementStats := ⟨0, 0, 0, 0⟩

/-- `self.replacement_history`: `(file_path, line_number, original_line)`. -/
structure REState where
  replacement_history : List (String × Nat × List Char)
deriving DecidableEq

/-- `self.max_history = 50`. -/
def maxHistory : Nat := 50

/-- `ReplaceEngine.replace` (the claims' `replaceAt`): bounds-check the
1-based line and the `0 ≤ start ≤ end ≤ len(line)` span, splice, commit via
`update_content`, and on success append a Replacement Record, popping the
front when the buffer exceeds `max_history`. -/
def replaceAt (cm : CMState) (re : REState) (p : String) (ln s e : Nat)
    (newText : List Char) : Bool × CMState × REState :=
  match lookupCM cm p with
  | none => (false, cm, re)
  | some content =>
    if 1 ≤ ln ∧ ln ≤ (splitLines content).length then
      if s ≤ e ∧ e ≤ ((splitLines content).getD (ln - 1) []).length then
        match updateContent cm p (joinLines ((splitLines content).set (ln - 1)
            (((splitLines content).getD (ln - 1) []).take s ++ newText
              ++ ((splitLines content).getD (ln - 1) []).drop e))) with
        | (true, cm') =>
          (true, cm',
            ⟨if maxHistory <
                (re.replacement_history
                  ++ [(p, ln, (splitLines content).getD (ln - 1) [])]).length then
              (re.replacement_history
                ++ [(p, ln, (splitLines content).getD (ln - 1) [])]).tail
            else
              re.replacement_history ++ [(p, ln, (splitLines content).getD (ln - 1) [])]⟩)
        | (false, cm') => (false, cm', re)
      else (false, cm, re)
    else (false, cm, re)

/-- `ReplaceEngine.undo_last_replacement`: the pop happens *before* the
content and line-range validations, so a stale record is discarded even when
the undo then fails. -/
def undoLastReplacement (cm : CMState) (re : REState) : Bool × CMState × REState :=
  match re.replacement_history.getLast? with
  | none => (false, cm, re)
  | some rec =>
    match lookupCM cm rec.1 with
    | none => (false, cm, ⟨re.replacement_history.dropLast⟩)
    | some content =>
      if 1 ≤ rec.2.1 ∧ rec.2.1 ≤ (splitLines content).length then
        ((updateContent cm rec.1
            (joinLines ((splitLines content).set (rec.2.1 - 1) rec.2.2))).1,
          (updateContent cm rec.1
            (joinLines ((splitLines content).set (rec.2.1 - 1) rec.2.2))).2,
          ⟨re.replacement_history.dropLast⟩)
      else (false, cm, ⟨re.replacement_history.dropLast⟩)

/-- `ReplaceEngine.pattern_replace`: one substitute-all pass per target file
(`files_to_process` defaults to every key of `content_map`), committing via
`update_content` only when at least one substitution happened; a rejected
commit increments `failed_files`; `files_modified` is the cardinality of the
set of successfully modified paths.  The replacement history is never
touched — the method body of `pattern_replace` contains no reference to
`self.replacement_history`. -/
def patternReplace (cmp : Option (List Char → List Char × Nat))
    (filesToProcess : Option (List String)) (cm : CMState) (re : REState) :
    ReplacementStats × CMState × REState :=
  match cmp with
  | none => (initStats, cm, re)
  | some subf =>
    let res := (match filesToProcess with
        | none => cm.content_map.map Prod.fst
        | some fs => fs).foldl
      (fun (acc : ReplacementStats × CMState × List String) p =>
        match lookupCM acc.2.1 p with
        | none => acc
        | some content =>
          if 0 < (subf content).2 then
            match updateContent acc.2.1 p (subf content).1 with
            | (true, cm') =>
              ({ acc.1 with
                  total_replacements := acc.1.total_replacements + (subf content).2
                  characters_changed := acc.1.characters_changed
                    + ((subf content).1.length : Int) - (content.length : Int) },
                cm',
                if p ∈ acc.2.2 then acc.2.2 else acc.2.2 ++ [p])
            | (false, cm') =>
              ({ acc.1 with failed_files := acc.1.failed_files + 1 }, cm', acc.2.2)
          else acc)
      (initStats, cm, [])
    ({ res.1 with files_modified := res.2.2.length }, res.2.1, re)

/-- Grouping order of `replace_by_results`: Python dict insertion order —
file paths in order of first appearance. -/
def groupKeys (rs : List SearchResult) : List String :=
  rs.foldl (fun acc r => if r.file_path ∈ acc then acc else acc ++ [r.file_path]) []

/-- `results.sort(key=lambda r: (r.line_number, r.start_pos), reverse=True)`:
a stable descending sort on the `(line, start)` key.  Stable sorting under a
total preorder is extensionally unique, so this insertion sort computes the
same list as CPython's stable sort with `reverse=True` (ties keep their
original order). -/
def insertDescByKey (r : SearchResult) : List SearchResult → List SearchResult
  | [] => [r]
  | x :: xs =>
    if r.line_number < x.line_number ∨
        (r.line_number = x.line_number ∧ r.start_pos < x.start_pos) then
      x :: insertDescByKey r xs
    else r :: x :: xs

def sortDescByKey (l : List SearchResult) : List SearchResult :=
  l.foldr insertDescByKey []

/-- One iteration of the `for res in results` loop of `replace_by_results`
over the live `lines` list and the running `file_replacements` count: apply
the splice only when the line index is in range *and* the live line still
holds the recorded matched text at the recorded offsets; otherwise skip. -/
def applyOne (newText : List Char) (st : List (List Char) × Nat) (r : SearchResult) :
    List (List Char) × Nat :=
  if 1 ≤ r.line_number ∧ r.line_number - 1 < st.1.length then
    if pySlice (st.1.getD (r.line_number - 1) []) r.start_pos r.end_pos == r.match_text then
      (st.1.set (r.line_number - 1)
          ((st.1.getD (r.line_number - 1) []).take r.start_pos ++ newText
            ++ (st.1.getD (r.line_number - 1) []).drop r.end_pos),
        st.2 + 1)
    else st
  else st

/-- Body of the `for file_path, results in grouped_results.items()` loop of
`ReplaceEngine.replace_by_results`, one file at a time over the running
`(stats, store)` accumulator: fetch the live content (the `if not content`
guard also skips a file whose content is the empty string), sort that file's
results descending by `(line, start)`, apply them with per-result
revalidation via `applyOne`, and commit through `update_content` only when at
least one result was applied. -/
def processFileStep (newText : List Char) (rs : List SearchResult)
    (acc : ReplacementStats × CMState) (p : String) : ReplacementStats × CMState :=
  match lookupCM acc.2 p with
  | none => acc
  | some content =>
    if content = [] then acc
    else
      if 0 < ((sortDescByKey (rs.filter (fun r => r.file_path == p))).foldl
          (applyOne newText) (splitLines content, 0)).2 then
        if (updateContent acc.2 p
            (joinLines ((sortDescByKey (rs.filter (fun r => r.file_path == p))).foldl
              (applyOne newText) (splitLines content, 0)).1)).1 then
          ({ acc.1 with
              total_replacements := acc.1.total_replacements
                + ((sortDescByKey (rs.filter (fun r => r.file_path == p))).foldl
                    (applyOne newText) (splitLines content, 0)).2
              files_modified := acc.1.files_modified + 1 },
            (updateContent acc.2 p
              (joinLines ((sortDescByKey (rs.filter (fun r => r.file_path == p))).foldl
                (applyOne newText) (splitLines content, 0)).1)).2)
        else
          (acc.1,
            (updateContent acc.2 p
              (joinLines ((sortDescByKey (rs.filter (fun r => r.file_path == p))).foldl
                (applyOne newText) (splitLines content, 0)).1)).2)
      else acc

def replaceByResults (cm : CMState) (rs : List SearchResult) (newText : List Char) :
    ReplacementStats × CMState :=
  (groupKeys rs).foldl (processFileStep newText rs) (initStats, cm)

/-- C9 counterexample: add `"a" = "l1\nl2"`, `replace("a", 2, 0, 2, "zz")`
(appending the record `("a", 2, "l2")`), then `update_content("a", "l1")` so
line 2 no longer exists.  `undo_last_replacement` now returns `false` — but
it has already popped the record: the replacement history shrinks from one
record to none, contradicting "returns false without mutating any state". -/
theorem c9_undo_pops_on_failed_validation :
    (undoLastReplacement
        (updateContent (replaceAt (addFile initCM "a" "l1\nl2".toList).2 ⟨[]⟩
          "a" 2 0 2 "zz".toList).2.1 "a" "l1".toList).2
        (replaceAt (addFile initCM "a" "l1\nl2".toList).2 ⟨[]⟩
          "a" 2 0 2 "zz".toList).2.2).1 = false ∧
      (replaceAt (addFile initCM "a" "l1\nl2".toList).2 ⟨[]⟩
          "a" 2 0 2 "zz".toList).2.2.replacement_history = [("a", 2, "l2".toList)] ∧
      (undoLastReplacement
        (updateContent (replaceAt (addFile initCM "a" "l1\nl2".toList).2 ⟨[]⟩
          "a" 2 0 2 "zz".toList).2.1 "a" "l1".toList).2
        (replaceAt (addFile initCM "a" "l1\nl2".toList).2 ⟨[]⟩
          "a" 2 0 2 "zz".toList).2.2).2.2.replacement_history = [] := by
  refine ⟨by decide, by decide, by decide⟩

/-- C9 (amended): `undo_last_replacement` returns `false` with *no* mutation
only when the history is empty; when the most recent record's target file is
gone or its line number is out of range it returns `false` with the Store
untouched but the stale record already popped; otherwise it pops the record,
restores the recorded original line via `update_content`, and returns its
result. -/
theorem c9_undo_last_replacement_cases (cm : CMState) (re : REState) :
    (re.replacement_history = [] → undoLastReplacement cm re = (false, cm, re)) ∧
    (∀ rec, re.replacement_history.getLast? = some rec →
      ∀ content, lookupCM cm rec.1 = some content →
        (¬ (1 ≤ rec.2.1 ∧ rec.2.1 ≤ (splitLines content).length) →
          undoLastReplacement cm re = (false, cm, ⟨re.replacement_history.dropLast⟩)) ∧
        ((1 ≤ rec.2.1 ∧ rec.2.1 ≤ (splitLines content).length) →
          undoLastReplacement cm re =
            ((updateContent cm rec.1
                (joinLines ((splitLines content).set (rec.2.1 - 1) rec.2.2))).1,
              (updateContent cm rec.1
                (joinLines ((splitLines content).set (rec.2.1 - 1) rec.2.2))).2,
              ⟨re.replacement_history.dropLast⟩))) := by
  constructor
  · intro h
    unfold undoLastReplacement
    rw [h]
    rfl
  · intro rec hlast content hcont
    have key : undoLastReplacement cm re =
        if 1 ≤ rec.2.1 ∧ rec.2.1 ≤ (splitLines content).length then
          ((updateContent cm rec.1
              (joinLines ((splitLines content).set (rec.2.1 - 1) rec.2.2))).1,
            (updateContent cm rec.1
              (joinLines ((splitLines content).set (rec.2.1 - 1) rec.2.2))).2,
            ⟨re.replacement_history.dropLast⟩)
        else (false, cm, ⟨re.replacement_history.dropLast⟩) := by
      unfold undoLastReplacement
      split
      · rename_i heq
        rw [heq] at hlast
        exact absurd hlast (by simp)
      · rename_i rec2 heq
        rw [heq] at hlast
        injection hlast with hr
        subst hr
        split
        · rename_i heq2
          rw [heq2] at hcont
          exact absurd hcont (by simp)
        · rename_i content2 heq2
          rw [heq2] at hcont
          injection hcont with hco
          subst hco
          rfl
    exact ⟨fun hout => by rw [key, if_neg hout], fun hin => by rw [key, if_pos hin]⟩

/-- Witness for the amended C9 on the concrete stale-record scenario and on
the empty history. -/
theorem c9_undo_last_replacement_cases_witness :
    ((⟨[]⟩ : REState).replacement_history = [] ∧
      undoLastReplacement initCM ⟨[]⟩ = (false, initCM, ⟨[]⟩)) ∧
    ((⟨[("a", 2, "l2".toList)]⟩ : REState).replacement_history.getLast?
        = some ("a", 2, "l2".toList) ∧
      lookupCM (addFile initCM "a" "l1".toList).2 "a" = some "l1".toList ∧
      ¬ (1 ≤ 2 ∧ 2 ≤ (splitLines "l1".toList).length) ∧
      undoLastReplacement (addFile initCM "a" "l1".toList).2 ⟨[("a", 2, "l2".toList)]⟩ =
        (false, (addFile initCM "a" "l1".toList).2,
          ⟨([("a", 2, "l2".toList)] : List (String × Nat × List Char)).dropLast⟩)) :=
  ⟨⟨rfl, (c9_undo_last_replacement_cases initCM ⟨[]⟩).1 rfl⟩,
    ⟨by decide, by decide, by decide,
      (((c9_undo_last_replacement_cases (addFile initCM "a" "l1".toList).2
          ⟨[("a", 2, "l2".toList)]⟩).2 ("a", 2, "l2".toList) (by decide)
          "l1".toList (by decide)).1 (by decide))⟩⟩

/-- C10: neither `pattern_replace` nor `replace_by_results` ever appends to
the Replacement Record buffer — their bodies never reference
`self.replacement_history` (in the model, `patternReplace` passes the engine
state through untouched, and `replaceByResults` acts on the Store alone) —
so the record `undo_last_replacement` would pop (the last of the buffer) is
the same before and after any such batch call; only `replace` appends. -/
theorem c10_batch_ops_preserve_history (cmp : Option (List Char → List Char × Nat))
    (filesToProcess : Option (List String)) (cm : CMState) (re : REState)
    (rs : List SearchResult) (newText : List Char) :
    (patternReplace cmp filesToProcess cm re).2.2 = re ∧
    ((patternReplace cmp filesToProcess cm re).2.2).replacement_history.getLast?
      = re.replacement_history.getLast? ∧
    (∀ (cm' : CMState),
      (undoLastReplacement cm' (patternReplace cmp filesToProcess cm re).2.2).2.2
        = (undoLastReplacement cm' re).2.2) ∧
    ((replaceByResults cm rs newText).2, re).2 = re := by
  have hpr : (patternReplace cmp filesToProcess cm re).2.2 = re := by
    cases cmp <;> rfl
  exact ⟨hpr, by rw [hpr], fun cm' => by rw [hpr], rfl⟩

theorem mem_joinLines {x : Char} :
    ∀ {parts : List (List Char)}, x ∈ joinLines parts → x = '\n' ∨ ∃ l ∈ parts, x ∈ l := by
  intro parts
  induction parts with
  | nil => intro h; simp [joinLines] at h
  | cons l ls ih =>
    intro h
    cases ls with
    | nil => exact Or.inr ⟨l, by simp, by simpa [joinLines] using h⟩
    | cons m ms =>
      have hj : joinLines (l :: m :: ms) = l ++ '\n' :: joinLines (m :: ms) := rfl
      rw [hj] at h
      rcases List.mem_append.mp h with h1 | h2
      · exact Or.inr ⟨l, by simp, h1⟩
      · rcases List.mem_cons.mp h2 with h3 | h4
        · exact Or.inl h3
        · rcases ih h4 with h5 | ⟨l', hl', hx⟩
          · exact Or.inl h5
          · exact Or.inr ⟨l', by simp [hl'], hx⟩

theorem mem_joinLines_of_mem {x : Char} {l : List Char} :
    ∀ {parts : List (List Char)}, l ∈ parts → x ∈ l → x ∈ joinLines parts := by
  intro parts
  induction parts with
  | nil => intro h _; simp at h
  | cons a ls ih =>
    intro hl hx
    cases ls with
    | nil =>
      rcases List.mem_cons.mp hl with h | h
      · subst h; simpa [joinLines] using hx
      · simp at h
    | cons m ms =>
      have hj : joinLines (a :: m :: ms) = a ++ '\n' :: joinLines (m :: ms) := rfl
      rw [hj]
      rcases List.mem_cons.mp hl with h | h
      · subst h; exact List.mem_append.mpr (Or.inl hx)
      · exact List.mem_append.mpr (Or.inr (List.mem_cons_of_mem _ (ih h hx)))

/-- After `update_content(p, newC)` on a present, valid path the current
content is `newC` — also in the idempotent-no-op branch, where the old
content already equals `newC`. -/
theorem lookupCM_updateContent_self {cm : CMState} {p : String} {c newC : List Char}
    (hc : lookupCM cm p = some c) (hv : validateContent newC = true) :
    lookupCM (updateContent cm p newC).2 p = some newC := by
  have hfind : (cm.content_map.find? (fun e => e.1 == p)).isSome := by
    unfold lookupCM at hc
    cases hf : cm.content_map.find? (fun e => e.1 == p) with
    | none => rw [hf] at hc; simp at hc
    | some v => simp
  unfold updateContent
  split
  · rename_i heq
    rw [heq] at hc
    simp at hc
  · rename_i old heq
    rw [heq] at hc
    injection hc with hco
    subst hco
    rw [if_neg (by simp [hv])]
    by_cases heq2 : old = newC
    · rw [if_pos heq2]
      rw [← heq2]
      exact heq
    · rw [if_neg heq2]
      show Option.map Prod.snd
        ((cm.content_map.map (fun e => if e.1 == p then (p, newC) else e)).find?
          (fun e => e.1 == p)) = _
      rw [find_map_replace_self, if_pos hfind]
      rfl

/-- Core of C2's order-correctness: two valid, disjoint results on the same
line of the same file are both applied by `replace_by_results` — the
descending sort applies the right-hand result first, so the left-hand
result's recorded offsets still validate against the live line — and the
committed content carries both splices. -/
theorem c2_two_results_core (cm : CMState) (p : String) (c newText L : List Char)
    (ln : Nat) (r₁ r₂ : SearchResult)
    (hc : lookupCM cm p = some c) (hcne : c ≠ [])
    (hnc : '\x00' ∉ c) (hnt : '\x00' ∉ newText)
    (hf1 : r₁.file_path = p) (hf2 : r₂.file_path = p)
    (hl1 : r₁.line_number = ln) (hl2 : r₂.line_number = ln)
    (hln1 : 1 ≤ ln) (hln2 : ln - 1 < (splitLines c).length)
    (hLdef : L = (splitLines c).getD (ln - 1) [])
    (hm1 : pySlice L r₁.start_pos r₁.end_pos = r₁.match_text)
    (hm2 : pySlice L r₂.start_pos r₂.end_pos = r₂.match_text)
    (he2 : r₂.end_pos = r₂.start_pos + r₂.match_text.length)
    (hord : r₁.start_pos < r₂.start_pos)
    (hdisj : r₁.end_pos ≤ r₂.start_pos)
    (hbound : r₂.end_pos ≤ L.length) :
    lookupCM (replaceByResults cm [r₁, r₂] newText).2 p =
      some (joinLines ((splitLines c).set (ln - 1)
        (L.take r₁.start_pos ++ newText ++ pySlice L r₁.end_pos r₂.start_pos
          ++ newText ++ L.drop r₂.end_pos))) := by
  have hs2e : r₂.start_pos ≤ r₂.end_pos := he2 ▸ Nat.le_add_right _ _
  have hs2le : r₂.start_pos ≤ L.length := le_trans hs2e hbound
  have hs1le : r₁.start_pos ≤ r₂.start_pos := le_of_lt hord
  have htklen : (L.take r₂.start_pos).length = r₂.start_pos := by
    simp [hs2le]
  -- the line after the first (right-hand) splice
  have happ2 : applyOne newText (splitLines c, 0) r₂ =
      ((splitLines c).set (ln - 1)
        (L.take r₂.start_pos ++ newText ++ L.drop r₂.end_pos), 1) := by
    unfold applyOne
    rw [hl2]
    rw [if_pos ⟨hln1, hln2⟩]
    rw [← hLdef]
    rw [if_pos (show (pySlice L r₂.start_pos r₂.end_pos == r₂.match_text) = true by
      rw [hm2]; exact beq_self_eq_true _)]
  -- the slice of the left-hand result is untouched by the right-hand splice
  have hslice1 : pySlice (L.take r₂.start_pos ++ newText ++ L.drop r₂.end_pos)
      r₁.start_pos r₁.end_pos = pySlice L r₁.start_pos r₁.end_pos := by
    unfold pySlice
    rw [List.append_assoc]
    rw [List.drop_append_of_le_length (show r₁.start_pos ≤ (L.take r₂.start_pos).length by rw [htklen]; exact hs1le)]
    rw [List.take_append_of_le_length (by
      rw [List.length_drop, htklen]
      exact Nat.sub_le_sub_right hdisj _)]
    rw [List.drop_take, List.take_take,
      min_eq_left (Nat.sub_le_sub_right hdisj _)]
  have hgetD : ((splitLines c).set (ln - 1)
      (L.take r₂.start_pos ++ newText ++ L.drop r₂.end_pos)).getD (ln - 1) [] =
        L.take r₂.start_pos ++ newText ++ L.drop r₂.end_pos := by
    rw [List.getD_eq_getElem _ _ (by simpa using hln2)]
    exact List.getElem_set_self _
  have happ1 : applyOne newText
      ((splitLines c).set (ln - 1)
        (L.take r₂.start_pos ++ newText ++ L.drop r₂.end_pos), 1) r₁ =
      ((splitLines c).set (ln - 1)
        ((L.take r₂.start_pos ++ newText ++ L.drop r₂.end_pos).take r₁.start_pos
          ++ newText
          ++ (L.take r₂.start_pos ++ newText ++ L.drop r₂.end_pos).drop r₁.end_pos), 2) := by
    unfold applyOne
    rw [hl1]
    rw [if_pos ⟨hln1, by simpa using hln2⟩]
    rw [hgetD]
    rw [if_pos (show ((pySlice (L.take r₂.start_pos ++ newText ++ L.drop r₂.end_pos)
        r₁.start_pos r₁.end_pos) == r₁.match_text) = true by
      rw [hslice1, hm1]; exact beq_self_eq_true _)]
    rw [List.set_set]
  -- the composed line equals the claim's two-splice line
  have hline : (L.take r₂.start_pos ++ newText ++ L.drop r₂.end_pos).take r₁.start_pos
      ++ newText
      ++ (L.take r₂.start_pos ++ newText ++ L.drop r₂.end_pos).drop r₁.end_pos =
      L.take r₁.start_pos ++ newText ++ pySlice L r₁.end_pos r₂.start_pos
        ++ newText ++ L.drop r₂.end_pos := by
    rw [List.append_assoc (L.take r₂.start_pos)]
    rw [List.take_append_of_le_length (show r₁.start_pos ≤ (L.take r₂.start_pos).length by rw [htklen]; exact hs1le)]
    rw [List.take_take, min_eq_left hs1le]
    rw [List.drop_append_of_le_length (show r₁.end_pos ≤ (L.take r₂.start_pos).length by rw [htklen]; exact hdisj)]
    rw [List.drop_take]
    unfold pySlice
    simp [List.append_assoc]
  -- the committed content
  have hvnew : validateContent (joinLines ((splitLines c).set (ln - 1)
      (L.take r₁.start_pos ++ newText ++ pySlice L r₁.end_pos r₂.start_pos
        ++ newText ++ L.drop r₂.end_pos))) = true := by
    have hLmem : L ∈ splitLines c := by
      rw [hLdef, List.getD_eq_getElem _ _ hln2]
      exact List.getElem_mem _
    have hmemL : ('\x00' : Char) ∉ L := fun hx =>
      hnc (joinLines_splitLines c ▸ mem_joinLines_of_mem hLmem hx)
    have hnull : ('\x00' : Char) ∉ joinLines ((splitLines c).set (ln - 1)
        (L.take r₁.start_pos ++ newText ++ pySlice L r₁.end_pos r₂.start_pos
          ++ newText ++ L.drop r₂.end_pos)) := by
      intro hmem
      rcases mem_joinLines hmem with h | ⟨l, hl, hx⟩
      · exact absurd h (by decide)
      · rcases List.mem_or_eq_of_mem_set hl with hl' | rfl
        · exact hnc (joinLines_splitLines c ▸ mem_joinLines_of_mem hl' hx)
        · rcases List.mem_append.mp hx with hx | hx
          rotate_left
          · exact hmemL (List.mem_of_mem_drop hx)
          rcases List.mem_append.mp hx with hx | hx
          rotate_left
          · exact hnt hx
          rcases List.mem_append.mp hx with hx | hx
          rotate_left
          · exact hmemL (List.mem_of_mem_drop (List.mem_of_mem_take hx))
          rcases List.mem_append.mp hx with hx | hx
          · exact hmemL (List.mem_of_mem_take hx)
          · exact hnt hx
    simpa [validateContent] using hnull
  -- assemble the whole call
  have hg : groupKeys [r₁, r₂] = [p] := by
    simp [groupKeys, hf1, hf2]
  have hfil : [r₁, r₂].filter (fun r => r.file_path == p) = [r₁, r₂] := by
    simp [hf1, hf2]
  have hsort : sortDescByKey [r₁, r₂] = [r₂, r₁] := by
    simp [sortDescByKey, insertDescByKey, hl1, hl2, hord]
  have hfold : (sortDescByKey ([r₁, r₂].filter (fun r => r.file_path == p))).foldl
      (applyOne newText) (splitLines c, 0) =
      ((splitLines c).set (ln - 1)
        (L.take r₁.start_pos ++ newText ++ pySlice L r₁.end_pos r₂.start_pos
          ++ newText ++ L.drop r₂.end_pos), 2) := by
    rw [hfil, hsort]
    simp only [List.foldl_cons, List.foldl_nil]
    rw [happ2, happ1, hline]
  unfold replaceByResults
  rw [hg]
  simp only [List.foldl_cons, List.foldl_nil]
  have hstep : (processFileStep newText [r₁, r₂] (initStats, cm) p).2 =
      (updateContent cm p (joinLines ((splitLines c).set (ln - 1)
        (L.take r₁.start_pos ++ newText ++ pySlice L r₁.end_pos r₂.start_pos
          ++ newText ++ L.drop r₂.end_pos)))).2 := by
    unfold processFileStep
    have hc' : lookupCM (initStats, cm).2 p = some c := hc
    split
    · rename_i heq
      rw [heq] at hc'
      simp at hc'
    · rename_i content heq
      rw [heq] at hc'
      injection hc' with hcc
      subst hcc
      rw [if_neg hcne]
      rw [hfold]
      rw [if_pos (by norm_num)]
      split <;> rfl
  rw [hstep]
  exact lookupCM_updateContent_self hc hvnew

/-- C2: `replace_by_results` groups results by file and within each file
applies them in `(line, startCol)`-descending order; a result is applied only
if the live line still holds the recorded matched text at the recorded
offsets, a mismatch (or out-of-range line) skipping that single result while
the rest of the batch proceeds; and two valid disjoint results on the same
line are both applied without corrupting each other's offsets, the committed
content carrying both splices. -/
theorem c2_replace_by_results_safe :
    (∀ (newText : List Char) (lines : List (List Char)) (n : Nat)
        (r : SearchResult) (rest : List SearchResult),
        (1 ≤ r.line_number ∧ r.line_number - 1 < lines.length →
          pySlice (lines.getD (r.line_number - 1) []) r.start_pos r.end_pos
            ≠ r.match_text) →
        (r :: rest).foldl (applyOne newText) (lines, n) =
          rest.foldl (applyOne newText) (lines, n)) ∧
    (∀ (cm : CMState) (p : String) (c newText L : List Char) (ln : Nat)
        (r₁ r₂ : SearchResult),
        lookupCM cm p = some c → c ≠ [] →
        '\x00' ∉ c → '\x00' ∉ newText →
        r₁.file_path = p → r₂.file_path = p →
        r₁.line_number = ln → r₂.line_number = ln →
        1 ≤ ln → ln - 1 < (splitLines c).length →
        L = (splitLines c).getD (ln - 1) [] →
        pySlice L r₁.start_pos r₁.end_pos = r₁.match_text →
        pySlice L r₂.start_pos r₂.end_pos = r₂.match_text →
        r₂.end_pos = r₂.start_pos + r₂.match_text.length →
        r₁.start_pos < r₂.start_pos →
        r₁.end_pos ≤ r₂.start_pos →
        r₂.end_pos ≤ L.length →
        lookupCM (replaceByResults cm [r₁, r₂] newText).2 p =
          some (joinLines ((splitLines c).set (ln - 1)
            (L.take r₁.start_pos ++ newText ++ pySlice L r₁.end_pos r₂.start_pos
              ++ newText ++ L.drop r₂.end_pos)))) := by
  constructor
  · intro newText lines n r rest h
    simp only [List.foldl_cons]
    have hskip : applyOne newText (lines, n) r = (lines, n) := by
      unfold applyOne
      by_cases hb : 1 ≤ r.line_number ∧ r.line_number - 1 < lines.length
      · rw [if_pos hb]
        rw [if_neg (fun hbeq => (h hb) (beq_iff_eq.mp hbeq))]
      · rw [if_neg hb]
    rw [hskip]
  · intro cm p c newText L ln r₁ r₂ hc hcne hnc hnt hf1 hf2 hl1 hl2 hln1 hln2 hLdef
      hm1 hm2 he2 hord hdisj hbound
    exact c2_two_results_core cm p c newText L ln r₁ r₂ hc hcne hnc hnt hf1 hf2 hl1 hl2
      hln1 hln2 hLdef hm1 hm2 he2 hord hdisj hbound

/-- Witness for C2: a mismatching result is skipped, and two valid results on
one line of `"abcdef"` (replacing `"bc"` and `"ef"` with `"XY"`) both commit,
yielding `"aXYdXY"`. -/
theorem c2_replace_by_results_safe_witness :
    (([⟨"f", 1, 0, 1, "z".toList, [], []⟩] : List SearchResult).foldl
        (applyOne "X".toList) ([['a', 'b']], 0) =
      ([] : List SearchResult).foldl (applyOne "X".toList) ([['a', 'b']], 0)) ∧
    lookupCM (replaceByResults (addFile initCM "a" "abcdef".toList).2
        [⟨"a", 1, 1, 3, "bc".toList, [], []⟩, ⟨"a", 1, 4, 6, "ef".toList, [], []⟩]
        "XY".toList).2 "a" =
      some (joinLines ((splitLines "abcdef".toList).set 0
        ("abcdef".toList.take 1 ++ "XY".toList
          ++ pySlice "abcdef".toList 3 4 ++ "XY".toList ++ "abcdef".toList.drop 6))) :=
  ⟨c2_replace_by_results_safe.1 "X".toList [['a', 'b']] 0
      ⟨"f", 1, 0, 1, "z".toList, [], []⟩ [] (by decide),
    c2_replace_by_results_safe.2 (addFile initCM "a" "abcdef".toList).2 "a"
      "abcdef".toList "XY".toList "abcdef".toList 1
      ⟨"a", 1, 1, 3, "bc".toList, [], []⟩ ⟨"a", 1, 4, 6, "ef".toList, [], []⟩
      (by decide) (by decide) (by decide) (by decide) (by decide) (by decide)
      (by decide) (by decide) (by decide) (by decide) (by decide) (by decide)
      (by decide) (by decide) (by decide) (by decide) (by decide)⟩

/-! ## Package Saver (`src/src/epub_editor_pro/core/epub_saver.py`)

A zip archive is a list of entries; entry bytes are opaque and modelled as
`List Char` (UTF-8 encoding of corpus text is the identity on this model, and
"byte-identical" is list equality).  Python's `ZipFile.read(name)` resolves
the name through `NameToInfo`, where the *last* entry with a given name wins;
real EPUB archives have pairwise-distinct entry names, which C3 assumes as
`Nodup`.  Filesystem paths and the atomic temp-file move are outside the data
model: `writeEpubResult` is `some out` when the produced archive passes the
post-write validation and is moved onto the destination, `none` when the
destination is left untouched. -/

def ZIP_STORED : Nat := 0
def ZIP_DEFLATED : Nat := 8

structure ZipEntry where
  filename : String
  compress_type : Nat
  data : List Char
deriving DecidableEq

abbrev Archive := List ZipEntry

/-- `source_zip.read(name)`: bytes of the last entry with that name. -/
def zipRead (ar : Archive) (name : String) : Option (List Char) :=
  ((ar.filter (fun e => e.filename == name)).getLast?).map (fun e => e.data)

/-- `file_name.replace('\\', '/')`. -/
def normalizePath (s : String) : String :=
  String.mk (s.toList.map (fun ch => if ch = '\\' then '/' else ch))

/-- `EPUBSaver._validate_epub` on the archive value: nonempty, has
`META-INF/container.xml`, first entry named `mimetype` and stored
uncompressed, and `read('mimetype')` yields exactly
`b'application/epub+zip'`. -/
def validateEpub (ar : Archive) : Bool :=
  match ar with
  | [] => false
  | first :: _ =>
    decide ("META-INF/container.xml" ∈ ar.map (fun e => e.filename)) &&
    (first.filename == "mimetype") && (first.compress_type == ZIP_STORED) &&
    (zipRead ar "mimetype" == some "application/epub+zip".toList)

/-- The entry-writing loop of `EPUBSaver._write_epub`: the `mimetype` entry
first, stored uncompressed, with the source's `mimetype` bytes; then every
other source entry in order — the corpus's current content under the original
entry's metadata when its normalized path is a corpus key, else the bytes
`source_zip.read(file_name)` returns for that name.  `none` models the
`KeyError` a source without a `mimetype` entry would raise. -/
def writeEntries (src : Archive) (cm : CMState) : Option Archive :=
  match zipRead src "mimetype" with
  | none => none
  | some mdata =>
    some (⟨"mimetype", ZIP_STORED, mdata⟩ ::
      (src.filter (fun item => item.filename ≠ "mimetype")).map (fun item =>
        match lookupCM cm (normalizePath item.filename) with
        | some modified => { item with data := modified }
        | none => { item with data := (zipRead src item.filename).getD [] }))

/-- `EPUBSaver._write_epub`'s effect on the destination: the produced archive
when the post-write validation passes (then the temp file is atomically moved
onto the target), `none` when the destination is untouched. -/
def writeEpubResult (src : Archive) (cm : CMState) : Option Archive :=
  match writeEntries src cm with
  | none => none
  | some temp => if validateEpub temp then some temp else none

/-- `EPUBSaver._create_backup`: `none` when the source path does not exist;
otherwise the backup directory is created and `datetime.now()` is evaluated —
but `epub_saver.py` never imports `datetime`, so the name lookup raises
`NameError`, modelled as `Except.error`. -/
def createBackup (srcExists : Bool) : Except String (Option String) :=
  if !srcExists then Except.ok none
  else Except.error "NameError: name 'datetime' is not defined"

/-- `EPUBSaver.save_epub` for an in-place save (`output_path` omitted or
equal to the source): the backup runs first; the method has no try/except, so
an exception from `_create_backup` escapes the call boundary.  (Messages are
abbreviated; the write outcome reuses `writeEpubResult`.) -/
def saveEpub (src : Archive) (srcExists inPlace createBackupFlag : Bool)
    (cm : CMState) : Except String (Bool × String) :=
  if inPlace && createBackupFlag then
    match createBackup srcExists with
    | Except.error e => Except.error e
    | Except.ok none => Except.ok (false, "Backup creation failed")
    | Except.ok (some _) =>
      match writeEpubResult src cm with
      | some _ => Except.ok (true, "Saved successfully.")
      | none => Except.ok (false, "Save failed")
  else
    match writeEpubResult src cm with
    | some _ => Except.ok (true, "Saved successfully.")
    | none => Except.ok (false, "Save failed")

/-- C4 (code_bug evidence): an in-place save with backup of an *existing*
source archive raises `NameError` (missing `import datetime` in
`epub_saver.py`) and the exception escapes `save_epub` — no `(bool, message)`
outcome is returned and no backup is created; the claim's structured-outcome
path is reached only when the source file does not exist. -/
theorem c4_backup_raises_nameerror (src : Archive) (cm : CMState) :
    saveEpub src true true true cm
        = Except.error "NameError: name 'datetime' is not defined" ∧
      saveEpub src false true true cm = Except.ok (false, "Backup creation failed") := by
  exact ⟨rfl, rfl⟩

/-- With pairwise-distinct entry names, reading an entry's name returns that
entry's own bytes. -/
theorem zipRead_of_nodup {src : Archive} (hnd : (src.map (fun e => e.filename)).Nodup) :
    ∀ {item : ZipEntry}, item ∈ src → zipRead src item.filename = some item.data := by
  induction src with
  | nil => intro item h; simp at h
  | cons e rest ih =>
    intro item hmem
    rw [List.map_cons] at hnd
    have hnd' := List.nodup_cons.mp hnd
    rcases List.mem_cons.mp hmem with h | h
    · subst h
      have hrest : rest.filter (fun x => x.filename == item.filename) = [] := by
        apply List.filter_eq_nil_iff.mpr
        intro x hx hbeq
        exact hnd'.1 (beq_iff_eq.mp hbeq ▸ List.mem_map_of_mem (fun e => e.filename) hx)
      unfold zipRead
      rw [@List.filter_cons_of_pos _ (fun x => x.filename == item.filename) item rest (by simp), hrest]
      rfl
    · have hne : ¬(e.filename == item.filename) = true := by
        intro hbeq
        exact hnd'.1 (beq_iff_eq.mp hbeq ▸ List.mem_map_of_mem (fun e => e.filename) h)
      unfold zipRead at ih ⊢
      rw [@List.filter_cons_of_neg _ (fun x => x.filename == item.filename) e rest hne]
      exact ih hnd'.2 h

/-- C3: for every save whose source archive validates (and whose entry names
are pairwise distinct, as in any well-formed zip), the written output archive
has `mimetype` as its first entry, stored uncompressed, byte-identical to the
source's `mimetype` entry (whose bytes validation pins to
`b'application/epub+zip'`); every other source entry whose normalized path is
in the corpus is written as the corpus's current content under the original
entry's metadata, and every other source entry is copied unchanged. -/
theorem c3_write_epub_preserves (src : Archive) (cm : CMState)
    (hv : validateEpub src = true)
    (hnd : (src.map (fun e => e.filename)).Nodup) :
    ∃ out : Archive,
      writeEpubResult src cm = some out ∧
      out.head? = some ⟨"mimetype", ZIP_STORED, "application/epub+zip".toList⟩ ∧
      zipRead src "mimetype" = some "application/epub+zip".toList ∧
      out.tail = (src.filter (fun item => item.filename ≠ "mimetype")).map (fun item =>
        match lookupCM cm (normalizePath item.filename) with
        | some modified => { item with data := modified }
        | none => item) := by
  cases src with
  | nil => simp [validateEpub] at hv
  | cons first rest =>
    have hv' := hv
    unfold validateEpub at hv'
    simp only [Bool.and_eq_true, beq_iff_eq, decide_eq_true_eq] at hv'
    obtain ⟨⟨⟨hcont, hfn⟩, hct⟩, hread⟩ := hv'
    have hentries : writeEntries (first :: rest) cm =
        some (⟨"mimetype", ZIP_STORED, "application/epub+zip".toList⟩ ::
          ((first :: rest).filter (fun item => item.filename ≠ "mimetype")).map (fun item =>
            match lookupCM cm (normalizePath item.filename) with
            | some modified => { item with data := modified }
            | none => { item with data := (zipRead (first :: rest) item.filename).getD [] })) := by
      unfold writeEntries
      rw [hread]
    have hname : ∀ item : ZipEntry,
        ((match lookupCM cm (normalizePath item.filename) with
          | some modified => { item with data := modified }
          | none =>
            { item with data := (zipRead (first :: rest) item.filename).getD [] }) :
          ZipEntry).filename = item.filename := by
      intro item
      cases lookupCM cm (normalizePath item.filename) <;> rfl
    have htail_map :
        ((first :: rest).filter (fun item => item.filename ≠ "mimetype")).map (fun item =>
          match lookupCM cm (normalizePath item.filename) with
          | some modified => { item with data := modified }
          | none => { item with data := (zipRead (first :: rest) item.filename).getD [] }) =
        ((first :: rest).filter (fun item => item.filename ≠ "mimetype")).map (fun item =>
          match lookupCM cm (normalizePath item.filename) with
          | some modified => { item with data := modified }
          | none => item) := by
      apply List.map_congr_left
      intro item hitem
      cases hlk : lookupCM cm (normalizePath item.filename) with
      | some m => simp [hlk]
      | none =>
        have hz : zipRead (first :: rest) item.filename = some item.data :=
          zipRead_of_nodup hnd (List.mem_of_mem_filter hitem)
        simp [hlk, hz]
    have houtnames :
        ((⟨"mimetype", ZIP_STORED, "application/epub+zip".toList⟩ ::
          ((first :: rest).filter (fun item => item.filename ≠ "mimetype")).map (fun item =>
            match lookupCM cm (normalizePath item.filename) with
            | some modified => { item with data := modified }
            | none =>
              { item with
                data := (zipRead (first :: rest) item.filename).getD [] })).map
          (fun e => e.filename)) =
        "mimetype" :: ((first :: rest).filter
          (fun item => item.filename ≠ "mimetype")).map (fun e => e.filename) := by
      rw [List.map_cons, List.map_map]
      exact congrArg _ (List.map_congr_left (fun item _ => hname item))
    have hcont_out : "META-INF/container.xml" ∈
        ((⟨"mimetype", ZIP_STORED, "application/epub+zip".toList⟩ ::
          ((first :: rest).filter (fun item => item.filename ≠ "mimetype")).map (fun item =>
            match lookupCM cm (normalizePath item.filename) with
            | some modified => { item with data := modified }
            | none =>
              { item with
                data := (zipRead (first :: rest) item.filename).getD [] })).map
          (fun e => e.filename)) := by
      rw [houtnames]
      refine List.mem_cons_of_mem _ ?_
      rw [List.map_cons] at hcont
      rcases List.mem_cons.mp hcont with h | h
      · rw [hfn] at h
        exact absurd h (by decide)
      · rcases List.mem_map.mp h with ⟨item, hitem, hie⟩
        exact List.mem_map.mpr ⟨item,
          List.mem_filter.mpr ⟨List.mem_cons_of_mem _ hitem, by simp [hie]⟩, hie⟩
    have hreadout : zipRead
        (⟨"mimetype", ZIP_STORED, "application/epub+zip".toList⟩ ::
          ((first :: rest).filter (fun item => item.filename ≠ "mimetype")).map (fun item =>
            match lookupCM cm (normalizePath item.filename) with
            | some modified => { item with data := modified }
            | none =>
              { item with data := (zipRead (first :: rest) item.filename).getD [] }))
        "mimetype" = some "application/epub+zip".toList := by
      unfold zipRead
      rw [@List.filter_cons_of_pos ZipEntry (fun e => e.filename == "mimetype")
          ⟨"mimetype", ZIP_STORED, "application/epub+zip".toList⟩ _ (by simp),
        List.filter_eq_nil_iff.mpr (fun x hx => by
          rcases List.mem_map.mp hx with ⟨item, hitem, hxe⟩
          have hne : item.filename ≠ "mimetype" := by
            simpa using List.of_mem_filter hitem
          have hxfn : x.filename = item.filename := by
            rw [← hxe]
            exact hname item
          simp [hxfn, hne])]
      rfl
    have hvalidout : validateEpub
        (⟨"mimetype", ZIP_STORED, "application/epub+zip".toList⟩ ::
          ((first :: rest).filter (fun item => item.filename ≠ "mimetype")).map (fun item =>
            match lookupCM cm (normalizePath item.filename) with
            | some modified => { item with data := modified }
            | none =>
              { item with data := (zipRead (first :: rest) item.filename).getD [] }))
        = true := by
      unfold validateEpub
      rw [decide_eq_true hcont_out, hreadout]
      simp
    refine ⟨⟨"mimetype", ZIP_STORED, "application/epub+zip".toList⟩ ::
        ((first :: rest).filter (fun item => item.filename ≠ "mimetype")).map (fun item =>
          match lookupCM cm (normalizePath item.filename) with
          | some modified => { item with data := modified }
          | none =>
            { item with data := (zipRead (first :: rest) item.filename).getD [] }),
      ?_, rfl, hread, ?_⟩
    · unfold writeEpubResult
      rw [hentries]
      show (if validateEpub _ = true then _ else none) = _
      rw [if_pos hvalidout]
    · show ((first :: rest).filter (fun item => item.filename ≠ "mimetype")).map _ = _
      exact htail_map

/-- Witness for C3: a three-entry archive (stored `mimetype`, container
descriptor, one chapter) with the chapter present in the corpus. -/
theorem c3_write_epub_preserves_witness :
    validateEpub [⟨"mimetype", ZIP_STORED, "application/epub+zip".toList⟩,
        ⟨"META-INF/container.xml", ZIP_DEFLATED, "<container/>".toList⟩,
        ⟨"ch1.xhtml", ZIP_DEFLATED, "old".toList⟩] = true ∧
    (([⟨"mimetype", ZIP_STORED, "application/epub+zip".toList⟩,
        ⟨"META-INF/container.xml", ZIP_DEFLATED, "<container/>".toList⟩,
        ⟨"ch1.xhtml", ZIP_DEFLATED, "old".toList⟩] : Archive).map
          (fun e => e.filename)).Nodup ∧
    ∃ out : Archive,
      writeEpubResult [⟨"mimetype", ZIP_STORED, "application/epub+zip".toList⟩,
          ⟨"META-INF/container.xml", ZIP_DEFLATED, "<container/>".toList⟩,
          ⟨"ch1.xhtml", ZIP_DEFLATED, "old".toList⟩]
        (addFile initCM "ch1.xhtml" "new text".toList).2 = some out ∧
      out.head? = some ⟨"mimetype", ZIP_STORED, "application/epub+zip".toList⟩ ∧
      zipRead [⟨"mimetype", ZIP_STORED, "application/epub+zip".toList⟩,
          ⟨"META-INF/container.xml", ZIP_DEFLATED, "<container/>".toList⟩,
          ⟨"ch1.xhtml", ZIP_DEFLATED, "old".toList⟩] "mimetype"
        = some "application/epub+zip".toList ∧
      out.tail = (([⟨"mimetype", ZIP_STORED, "application/epub+zip".toList⟩,
          ⟨"META-INF/container.xml", ZIP_DEFLATED, "<container/>".toList⟩,
          ⟨"ch1.xhtml", ZIP_DEFLATED, "old".toList⟩] : Archive).filter
            (fun item => item.filename ≠ "mimetype")).map (fun item =>
          match lookupCM (addFile initCM "ch1.xhtml" "new text".toList).2
              (normalizePath item.filename) with
          | some modified => { item with data := modified }
          | none => item) :=
  ⟨by decide, by decide,
    c3_write_epub_preserves
      [⟨"mimetype", ZIP_STORED, "application/epub+zip".toList⟩,
        ⟨"META-INF/container.xml", ZIP_DEFLATED, "<container/>".toList⟩,
        ⟨"ch1.xhtml", ZIP_DEFLATED, "old".toList⟩]
      (addFile initCM "ch1.xhtml" "new text".toList).2 (by decide) (by decide)⟩
